import Mathlib

/-!
# helm-changelog: release reconstruction and the root command

A shallow embedding of `cmd/root.go` (the root command `Run`, `Execute` and
`setUpLogs`) together with the release reconstructor `helm.CreateHelmReleases`
that the root command calls once per chart.

* Go strings are Lean `String`s; `strings.TrimPrefix` is defined on the
  underlying character lists.
* The collaborators of the root command (`os.Getwd`, the `git` package, the
  `helm` package, `output.Markdown`, `path/filepath`) are fields of a record of
  functions over an abstract world state, threaded explicitly. Where the result
  of `filepath.Dir` and `filepath.Join` itself matters, they are Go's functions
  on Unix paths, `goDir` and `goJoin`.
* `log.Fatal` and `log.Fatalf` end the process: the run stops with status
  `fatal` at that statement.
-/

namespace HelmChangelog

/-! ## Data model -/

/-- Modelled from the spec: a commit as produced by the history provider (the type
of package `pkg/git` is not at hand), after section 3: an opaque identifier, a
timestamp, an author and a message. -/
structure Commit where
  identifier : String
  timestamp : Int
  author : String
  message : String
  deriving DecidableEq, Repr

/-- Modelled from the spec: a reconstructed release (the type of package `pkg/helm`
is not at hand), after section 3: the declared version (`none` is `Unknown`), the
timestamp of the newest commit of its range, and the commits attributed to it. -/
structure Release where
  version : Option String
  releaseTimestamp : Option Int
  changes : List Commit
  deriving DecidableEq, Repr

/-- Modelled from the spec: the one way the reconstructor can fail (section 4.2,
failure handling). -/
inductive ReconstructError where
  | OrderingViolation
  deriving DecidableEq, Repr

/-- Modelled from the spec: the version extractor `versionAt(commit, chartPath)` of
section 4.1, a parameter of the reconstructor; `none` is `Unknown`. -/
abbrev VersionAt := Commit → String → Option String

/-! ## Release reconstruction -/

/-- Modelled from the spec: the fold state of the reconstructor (section 4.2 step 1):
`currentVersion`, `currentBucket`, `output`, and the timestamp of the commit
consumed last. -/
structure ReconState where
  currentVersion : Option String
  currentBucket : List Commit
  output : List Release
  lastTimestamp : Option Int
  deriving DecidableEq, Repr

/-- Modelled from the spec: closing a bucket (section 4.2 step 2b): the release
carries the bucket's version, the timestamp of the first (newest) commit placed in
the bucket, and the bucket as `changes`. -/
def closeBucket (version : Option String) (bucket : List Commit) : Release :=
  { version := version
    releaseTimestamp := bucket.head?.map Commit.timestamp
    changes := bucket }

/-- Modelled from the spec: the initial state of section 4.2 step 1:
`currentVersion = Unknown`, empty bucket, empty output. -/
def ReconState.init : ReconState :=
  { currentVersion := none, currentBucket := [], output := [], lastTimestamp := none }

/-- Modelled from the spec: a commit is out of the promised newest-first order when
it is later than the commit before it (section 3: timestamps are non-increasing,
ties are possible). -/
def outOfOrder (last : Option Int) (t : Int) : Bool :=
  match last with
  | none => false
  | some p => decide (p < t)

/-- Modelled from the spec: one iteration of the loop of `helm.CreateHelmReleases`
(package `pkg/helm`, whose source is not at hand), after section 4.2 step 2 and the
failure-handling paragraph. A commit later than its predecessor is an
`OrderingViolation`; otherwise step 2b closes the bucket on a new known
version, step 2b' adopts the first reading, step 2c appends. -/
def reconstructStep (versionAt : VersionAt) (chartPath : String) (s : ReconState)
    (c : Commit) : Except ReconstructError ReconState :=
  if outOfOrder s.lastTimestamp c.timestamp then
    .error .OrderingViolation
  else
    let v := versionAt c chartPath
    if v ≠ none ∧ v ≠ s.currentVersion ∧ s.currentVersion ≠ none then
      .ok { currentVersion := v
            currentBucket := [c]
            output := s.output ++ [closeBucket s.currentVersion s.currentBucket]
            lastTimestamp := some c.timestamp }
    else if s.currentVersion = none then
      .ok { currentVersion := v
            currentBucket := s.currentBucket ++ [c]
            output := s.output
            lastTimestamp := some c.timestamp }
    else
      .ok { currentVersion := s.currentVersion
            currentBucket := s.currentBucket ++ [c]
            output := s.output
            lastTimestamp := some c.timestamp }

/-- Modelled from the spec: the loop of `helm.CreateHelmReleases` over the commits
in newest-first order (section 4.2 step 2), not at hand in source form. -/
def reconstructLoop (versionAt : VersionAt) (chartPath : String) :
    ReconState → List Commit → Except ReconstructError ReconState
  | s, [] => .ok s
  | s, c :: cs =>
    match reconstructStep versionAt chartPath s c with
    | .error e => .error e
    | .ok s' => reconstructLoop versionAt chartPath s' cs

/-- Modelled from the spec: section 4.2 step 3 of `helm.CreateHelmReleases`: a
non-empty bucket left after the loop is closed as the oldest release. -/
def reconstructFinish (s : ReconState) : List Release :=
  if s.currentBucket ≠ [] then
    s.output ++ [closeBucket s.currentVersion s.currentBucket]
  else
    s.output

/-- Modelled from the spec: the release reconstructor `helm.CreateHelmReleases`
(package `pkg/helm`, not at hand in source form), following section 4.2:
`reconstruct(commits, chartPath)` with the commits newest-first. -/
def reconstruct (versionAt : VersionAt) (commits : List Commit) (chartPath : String) :
    Except ReconstructError (List Release) :=
  match reconstructLoop versionAt chartPath ReconState.init commits with
  | .error e => .error e
  | .ok s => .ok (reconstructFinish s)

/-- Modelled from the spec: the promised input order (section 3): no commit is later
than the commit before it. -/
def newestFirst : List Commit → Prop
  | [] => True
  | [_] => True
  | a :: b :: cs => b.timestamp ≤ a.timestamp ∧ newestFirst (b :: cs)

instance newestFirst.decidable : (commits : List Commit) → Decidable (newestFirst commits)
  | [] => isTrue (by simp [newestFirst])
  | [_] => isTrue (by simp [newestFirst])
  | a :: b :: cs =>
    have := newestFirst.decidable (b :: cs)
    decidable_of_iff (b.timestamp ≤ a.timestamp ∧ newestFirst (b :: cs)) (by simp [newestFirst])

/-- The ordering condition as the loop meets it: each commit is compared with
the timestamp consumed last. -/
def orderedFrom : Option Int → List Commit → Prop
  | _, [] => True
  | last, c :: cs => outOfOrder last c.timestamp = false ∧ orderedFrom (some c.timestamp) cs

/-- The bucket is non-empty once a version is current, and no release emitted
so far is empty. -/
def ReconState.WellFormed (s : ReconState) : Prop :=
  (s.currentVersion ≠ none → s.currentBucket ≠ []) ∧ ∀ r ∈ s.output, r.changes ≠ []

/-- With every reading known: the bucket is empty while no version is current,
every commit of the bucket has the current version, and every commit of an
emitted release has that release's version. -/
def ReconState.Uniform (va : VersionAt) (path : String) (s : ReconState) : Prop :=
  (s.currentVersion = none → s.currentBucket = []) ∧
  (∀ c ∈ s.currentBucket, va c path = s.currentVersion) ∧
  ∀ r ∈ s.output, ∀ c ∈ r.changes, va c path = r.version

/-- The state `s` with the releases `front` placed before its output. -/
def ReconState.prepend (front : List Release) (s : ReconState) : ReconState :=
  { s with output := front ++ s.output }

/-! ## Strings and paths -/

/-- Go's `strings.HasPrefix`. -/
def hasPrefix (s pre : String) : Bool :=
  pre.data.isPrefixOf s.data

/-- Go's `strings.TrimPrefix`: `s` without the leading `pre` when `s` starts
with `pre`, and `s` unchanged otherwise. -/
def trimPrefix (s pre : String) : String :=
  if hasPrefix s pre then ⟨s.data.drop pre.data.length⟩ else s

/-! ### Go's `path/filepath` on Unix

The functions `filepath.Clean`, `filepath.Dir` and `filepath.Join` of the Go standard
library, by path elements. -/

/-- One path element consumed by `filepath.Clean`: an empty element and `.` are skipped;
`..` removes the last element written unless there is none to remove (nothing is written
yet, or only leading `..` elements are), in which case a rooted path drops it and an
unrooted path keeps it; any other element is written. -/
def cleanStep (rooted : Bool) (written : List (List Char)) (elem : List Char) :
    List (List Char) :=
  if elem = [] ∨ elem = ['.'] then written
  else if elem = ['.', '.'] then
    match written.getLast? with
    | none => if rooted then written else written ++ [elem]
    | some top =>
      if top = ['.', '.'] then (if rooted then written else written ++ [elem])
      else written.dropLast
  else written ++ [elem]

/-- The result of `filepath.Clean` from the elements written: joined by slashes,
after the leading slash of a rooted path, and `.` when nothing at all was written. -/
def renderPath (rooted : Bool) (written : List (List Char)) : List Char :=
  if rooted then '/' :: List.intercalate ['/'] written
  else if written = [] then ['.']
  else List.intercalate ['/'] written

/-- Go's `filepath.Clean` on Unix, on the characters of the path. -/
def cleanChars (path : List Char) : List Char :=
  if path = [] then ['.']
  else
    let rooted := path.head? == some '/'
    renderPath rooted ((path.splitOn '/').foldl (cleanStep rooted) [])

/-- The part of a path up to and including its last slash (empty without a slash). -/
def uptoLastSlash (path : List Char) : List Char :=
  (path.reverse.dropWhile (fun ch => ch != '/')).reverse

/-- Go's `filepath.Clean` on Unix. -/
def goClean (path : String) : String := ⟨cleanChars path.data⟩

/-- Go's `filepath.Dir` on Unix: `Clean` of the path up to its last slash. -/
def goDir (path : String) : String := ⟨cleanChars (uptoLastSlash path.data)⟩

/-- Go's `filepath.Join` on Unix for two elements: `Clean` of the non-empty elements
joined by a slash from the first non-empty one on, and the empty string when both
are empty. -/
def goJoin (a b : String) : String :=
  if a ≠ "" then ⟨cleanChars (a.data ++ '/' :: b.data)⟩
  else if b ≠ "" then ⟨cleanChars b.data⟩
  else ""

/-- A file name that is a single path element: not empty, not `.` or `..`, no slash. -/
def plainName (f : String) : Prop :=
  f.data ≠ [] ∧ f.data ≠ ['.'] ∧ f.data ≠ ['.', '.'] ∧ '/' ∉ f.data

/-- The elements `filepath.Clean` leaves written: without slash, none empty or `.`,
and `..` only in a leading run of an unrooted path. -/
def NormElems (rooted : Bool) (ws : List (List Char)) : Prop :=
  (∀ e ∈ ws, e ≠ [] ∧ e ≠ ['.'] ∧ '/' ∉ e) ∧
  (rooted = true → ['.', '.'] ∉ ws) ∧
  List.Chain' (fun a b => b = ['.', '.'] → a = ['.', '.']) ws

/-! ## The root command (`cmd/root.go`) -/

/-- A Go `error`, kept as its message. -/
abbrev GoError := String

deriving instance DecidableEq for Except

/-- The calls the root command makes to its collaborators, each with its
arguments and what it returned; `fatal` is a call of `log.Fatal`/`log.Fatalf`. -/
inductive Event where
  | getwd (result : Except GoError String)
  | findGitRepositoryRoot (result : Except GoError String)
  | findCharts (directory : String) (result : Except GoError (List String))
  | getAllCommits (directory : String) (result : Except GoError (List Commit))
  | createHelmReleases (chartFile relativeChartDir : String) (commits : List Commit)
      (result : List Release)
  | markdown (path : String) (releases : List Release)
  | fatal
  deriving DecidableEq, Repr

/-- The collaborators of the root command over a world state `σ`:
`os.Getwd`, `git.Git.FindGitRepositoryRoot`, `helm.FindCharts`,
`git.Git.GetAllCommits`, `helm.CreateHelmReleases`, `output.Markdown`, and the
pure `filepath.Dir` and `filepath.Join`. -/
structure Collaborators (σ : Type) where
  getwd : σ → Except GoError String × σ
  findGitRepositoryRoot : σ → Except GoError String × σ
  findCharts : String → σ → Except GoError (List String) × σ
  getAllCommits : String → σ → Except GoError (List Commit) × σ
  createHelmReleases : String → String → List Commit → σ → List Release × σ
  markdown : String → List Release → σ → σ
  dir : String → String
  join : String → String → String

/-- The package-level variables set from the command-line flags. -/
structure Config where
  changelogFilename : String
  chartsDirectory : String
  deriving DecidableEq, Repr

/-- How a run ended: it returned, or `log.Fatal` ended the process. -/
inductive Status where
  | completed
  | fatal
  deriving DecidableEq, Repr

/-- What a run did: its status, its calls in order, and the world it left. -/
structure Outcome (σ : Type) where
  status : Status
  trace : List Event
  world : σ

/-- The body of the `for` loop of `rootCmd.Run` (lines 47-69) for one chart file.
The `log.Infof` lines only write to the logger and are left out. -/
def runChart {σ : Type} (env : Collaborators σ) (cfg : Config)
    (currentDir gitBaseDir chartFileFullPath : String) (w : σ) : Outcome σ :=
  let fullChartDir := env.dir chartFileFullPath
  let chartFile := trimPrefix chartFileFullPath (gitBaseDir ++ "/")
  let relativeChartFile := trimPrefix chartFileFullPath (currentDir ++ "/")
  let relativeChartDir := env.dir relativeChartFile
  match env.getAllCommits fullChartDir w with
  | (.error e, w1) =>
    { status := .fatal
      trace := [.getAllCommits fullChartDir (.error e), .fatal]
      world := w1 }
  | (.ok allCommits, w1) =>
    match env.createHelmReleases chartFile relativeChartDir allCommits w1 with
    | (releases, w2) =>
      let changeLogFilePath := env.join fullChartDir cfg.changelogFilename
      { status := .completed
        trace := [.getAllCommits fullChartDir (.ok allCommits),
                  .createHelmReleases chartFile relativeChartDir allCommits releases,
                  .markdown changeLogFilePath releases]
        world := env.markdown changeLogFilePath releases w2 }

/-- The `for` loop of `rootCmd.Run` over the chart files (line 46): a chart whose
body ends in `log.Fatal` ends the loop and the run. -/
def runCharts {σ : Type} (env : Collaborators σ) (cfg : Config)
    (currentDir gitBaseDir : String) : List String → σ → Outcome σ
  | [], w => { status := .completed, trace := [], world := w }
  | p :: ps, w =>
    let o := runChart env cfg currentDir gitBaseDir p w
    match o.status with
    | .fatal => o
    | .completed =>
      let o' := runCharts env cfg currentDir gitBaseDir ps o.world
      { status := o'.status, trace := o.trace ++ o'.trace, world := o'.world }

/-- The function `rootCmd.Run` (lines 23-71). -/
def run {σ : Type} (env : Collaborators σ) (cfg : Config) (w : σ) : Outcome σ :=
  match env.getwd w with
  | (.error e, w1) =>
    { status := .fatal, trace := [.getwd (.error e), .fatal], world := w1 }
  | (.ok currentDir, w1) =>
    match env.findGitRepositoryRoot w1 with
    | (.error e, w2) =>
      { status := .fatal
        trace := [.getwd (.ok currentDir), .findGitRepositoryRoot (.error e), .fatal]
        world := w2 }
    | (.ok gitBaseDir, w2) =>
      let chartsDirectoryFullPath := env.join currentDir cfg.chartsDirectory
      match env.findCharts chartsDirectoryFullPath w2 with
      | (.error e, w3) =>
        { status := .fatal
          trace := [.getwd (.ok currentDir), .findGitRepositoryRoot (.ok gitBaseDir),
                    .findCharts chartsDirectoryFullPath (.error e), .fatal]
          world := w3 }
      | (.ok fileList, w3) =>
        let o := runCharts env cfg currentDir gitBaseDir fileList w3
        { status := o.status
          trace := [.getwd (.ok currentDir), .findGitRepositoryRoot (.ok gitBaseDir),
                    .findCharts chartsDirectoryFullPath (.ok fileList)] ++ o.trace
          world := o.world }

/-- The three calls a chart's processing consists of. -/
def Event.isChartEvent : Event → Bool
  | .getAllCommits _ _ => true
  | .createHelmReleases _ _ _ _ => true
  | .markdown _ _ => true
  | _ => false

/-- A collaborator call that returned an error. -/
def Event.failed : Event → Bool
  | .getwd (.error _) => true
  | .findGitRepositoryRoot (.error _) => true
  | .findCharts _ (.error _) => true
  | .getAllCommits _ (.error _) => true
  | _ => false

/-- The paths of the documents written in a trace, in order. -/
def writtenPaths (trace : List Event) : List String :=
  trace.filterMap fun
    | .markdown path _ => some path
    | _ => none

/-- The calls the loop body makes for the chart file `p` when `GetAllCommits` returns
the commits `cs` and `CreateHelmReleases` returns the releases `rs`. -/
def chartCalls {σ : Type} (env : Collaborators σ) (cfg : Config) (cwd r : String)
    (x : String × List Commit × List Release) : List Event :=
  [.getAllCommits (env.dir x.1) (.ok x.2.1),
   .createHelmReleases (trimPrefix x.1 (r ++ "/")) (env.dir (trimPrefix x.1 (cwd ++ "/")))
     x.2.1 x.2.2,
   .markdown (env.join (env.dir x.1) cfg.changelogFilename) x.2.2]

/-! ## Flags and logging (`Execute`, `setUpLogs`) -/

/-- The standard logger of logrus, as far as `setUpLogs` touches it: where it
writes and its level. -/
structure Logger (W L : Type) where
  out : W
  level : L
  deriving DecidableEq, Repr

/-- The function `setUpLogs` (lines 94-102): `logrus.SetOutput(out)`, then
`logrus.ParseLevel(level)`, whose error is returned before `logrus.SetLevel`.
`parseLevel` returns Go's pair of a level and an error (`none` is `nil`). -/
def setUpLogs {W L : Type} (parseLevel : String → L × Option GoError) (out : W)
    (level : String) (logger : Logger W L) : Option GoError × Logger W L :=
  let logger1 := { logger with out := out }
  match parseLevel level with
  | (_, some err) => (some err, logger1)
  | (lvl, none) => (none, { logger1 with level := lvl })

/-- The flags as given on the command line; `none` when a flag is not given. -/
structure Flags where
  filename : Option String
  verbosity : Option String
  directory : Option String
  deriving DecidableEq, Repr

/-- The flag registrations of `Execute` (lines 86 and 88): the flag `--filename`
(short `-f`) has the default `Changelog.md`, the flag `--directory` (short `-d`)
the default `.`. -/
def flagConfig (flags : Flags) : Config :=
  { changelogFilename := flags.filename.getD "Changelog.md"
    chartsDirectory := flags.directory.getD "." }

/-- The function `Execute` (lines 76-91): the pre-run hook calls `setUpLogs`
on standard output with the `-v` value (default `warnLevelString`, the value of
`logrus.WarnLevel.String()`); when it returns an error the command does not
run, otherwise `Run` runs with the flag values. -/
def Execute {σ W L : Type} (env : Collaborators σ) (parseLevel : String → L × Option GoError)
    (warnLevelString : String) (stdout : W) (flags : Flags) (logger : Logger W L) (w : σ) :
    Option GoError × Logger W L × Option (Outcome σ) :=
  let v := flags.verbosity.getD warnLevelString
  match setUpLogs parseLevel stdout v logger with
  | (some err, logger1) => (some err, logger1, none)
  | (none, logger1) => (none, logger1, some (run env (flagConfig flags) w))

/-! ## Sample data for the worked instances -/

/-- A version extractor given by a table from commit identifiers to versions. -/
def tableVersionAt (table : List (String × String)) : VersionAt :=
  fun c _ => (table.find? (fun e => e.1 == c.identifier)).map Prod.snd

/-- A commit with the given identifier and timestamp. -/
def mkCommit (identifier : String) (timestamp : Int) : Commit :=
  { identifier := identifier, timestamp := timestamp, author := "dev", message := "change" }

/-- The versions of the sample commits; `u1` has no reading (`Unknown`). -/
def sampleVersions : VersionAt :=
  tableVersionAt [("a0", "2.0"), ("a1", "2.0"), ("a2", "1.0"), ("a3", "1.0"),
    ("r0", "1.0"), ("r1", "2.0"), ("r2", "1.0"), ("u0", "2.0"), ("u2", "1.0"),
    ("s0", "3.1"), ("s1", "3.1"), ("s2", "3.1")]

/-- Versions 2.0, 2.0, 1.0, 1.0, newest first. -/
def boundaryCommits : List Commit :=
  [mkCommit "a0" 40, mkCommit "a1" 30, mkCommit "a2" 20, mkCommit "a3" 10]

/-- Versions 1.0, 2.0, 1.0, newest first: a revert. -/
def revertCommits : List Commit :=
  [mkCommit "r0" 30, mkCommit "r1" 20, mkCommit "r2" 10]

/-- Three commits of the one version 3.1. -/
def singleVersionCommits : List Commit :=
  [mkCommit "s0" 30, mkCommit "s1" 30, mkCommit "s2" 10]

/-- Versions 2.0, Unknown, 1.0, newest first. -/
def unknownCommits : List Commit :=
  [mkCommit "u0" 30, mkCommit "u1" 20, mkCommit "u2" 10]

/-- A sequence that is not newest-first: the second commit is later than the first. -/
def misorderedCommits : List Commit :=
  [mkCommit "a0" 10, mkCommit "a1" 30, mkCommit "a2" 20]

/-- The directory part of a slash-separated path: what precedes its last
slash. Stands in for `filepath.Dir` in the worked instances. -/
def sampleDir (p : String) : String :=
  ⟨(p.data.reverse.dropWhile (fun ch => ch != '/')).drop 1 |>.reverse⟩

/-- Two path elements joined by a slash. Stands in for `filepath.Join` in the
worked instances. -/
def sampleJoin (a b : String) : String :=
  if b = "." then a else a ++ "/" ++ b

/-- A sample world: the number of collaborator calls made so far. The repository
is at `/repo` with two charts; `GetAllCommits` fails for the directory `failDir`. -/
def sampleEnv (failDir : Option String) : Collaborators Nat where
  getwd w := (.ok "/repo", w + 1)
  findGitRepositoryRoot w := (.ok "/repo", w + 1)
  findCharts _ w := (.ok ["/repo/charts/a/Chart.yaml", "/repo/charts/b/Chart.yaml"], w + 1)
  getAllCommits d w :=
    if some d = failDir then (.error "git log failed", w + 1)
    else (.ok [mkCommit (d ++ "#1") 20, mkCommit (d ++ "#0") 10], w + 1)
  createHelmReleases _ _ cs w := ([closeBucket (some "1.0") cs], w + 1)
  markdown _ _ w := w + 1
  dir := sampleDir
  join := sampleJoin

/-- A sample environment in which `os.Getwd` fails. -/
def sampleEnvNoWd : Collaborators Nat :=
  { sampleEnv none with getwd := fun w => (.error "getwd: no such file or directory", w + 1) }

/-- The sample environment with Go's `filepath.Dir` and `filepath.Join`. -/
def goEnv : Collaborators Nat :=
  { sampleEnv none with dir := goDir, join := goJoin }

/-- A sample level parser accepting `warning` and `debug`. -/
def sampleParseLevel (s : String) : Nat × Option GoError :=
  if s = "warning" then (3, none)
  else if s = "debug" then (5, none)
  else (0, some ("not a valid logrus Level: " ++ s))

/-! ## Lemmas on the reconstructor -/



theorem reconstructStep_outOfOrder (va : VersionAt) (path : String) (s : ReconState) (c : Commit)
    (h : outOfOrder s.lastTimestamp c.timestamp = true) :
    reconstructStep va path s c = .error .OrderingViolation := by
  simp [reconstructStep, h]

theorem reconstructStep_inOrder (va : VersionAt) (path : String) (s : ReconState) (c : Commit)
    (h : outOfOrder s.lastTimestamp c.timestamp = false) :
    ∃ s', reconstructStep va path s c = .ok s' ∧ s'.lastTimestamp = some c.timestamp ∧
      (s'.output.map Release.changes).flatten ++ s'.currentBucket
        = (s.output.map Release.changes).flatten ++ s.currentBucket ++ [c] := by
  unfold reconstructStep
  simp only [h, Bool.false_eq_true, if_false]
  split_ifs <;> simp [closeBucket]

theorem reconstructLoop_error_iff (va : VersionAt) (path : String) (cs : List Commit) :
    ∀ s, reconstructLoop va path s cs = .error .OrderingViolation ↔ ¬ orderedFrom s.lastTimestamp cs := by
  induction cs with
  | nil => intro s; simp [reconstructLoop, orderedFrom]
  | cons c cs ih =>
    intro s
    cases h : outOfOrder s.lastTimestamp c.timestamp with
    | true =>
      simp [reconstructLoop, orderedFrom, reconstructStep_outOfOrder va path s c h, h]
    | false =>
      obtain ⟨s', hs', hl, _⟩ := reconstructStep_inOrder va path s c h
      simp [reconstructLoop, orderedFrom, hs', h, ih s', hl]

theorem reconstructLoop_ok_of_ordered (va : VersionAt) (path : String) (cs : List Commit) :
    ∀ s, orderedFrom s.lastTimestamp cs → ∃ s', reconstructLoop va path s cs = .ok s' := by
  intro s h
  cases hl : reconstructLoop va path s cs with
  | ok s' => exact ⟨s', rfl⟩
  | error e =>
    cases e
    exact absurd h ((reconstructLoop_error_iff va path cs s).1 hl)

theorem orderedFrom_some_iff (a : Commit) (cs : List Commit) :
    orderedFrom (some a.timestamp) cs ↔ newestFirst (a :: cs) := by
  induction cs generalizing a with
  | nil => simp [orderedFrom, newestFirst]
  | cons b cs ih =>
    simp only [orderedFrom, newestFirst, outOfOrder, decide_eq_false_iff_not, not_lt]
    rw [ih b]

theorem orderedFrom_none_iff (cs : List Commit) : orderedFrom none cs ↔ newestFirst cs := by
  cases cs with
  | nil => simp [orderedFrom, newestFirst]
  | cons a cs => simp [orderedFrom, outOfOrder, orderedFrom_some_iff]

theorem reconstructLoop_flatten (va : VersionAt) (path : String) (cs : List Commit) :
    ∀ s s', reconstructLoop va path s cs = .ok s' →
      (s'.output.map Release.changes).flatten ++ s'.currentBucket
        = (s.output.map Release.changes).flatten ++ s.currentBucket ++ cs := by
  induction cs with
  | nil => intro s s' h; simp [reconstructLoop] at h; subst h; simp
  | cons c cs ih =>
    intro s s' h
    cases ho : outOfOrder s.lastTimestamp c.timestamp with
    | true => simp [reconstructLoop, reconstructStep_outOfOrder va path s c ho] at h
    | false =>
      obtain ⟨s1, hs1, _, hfl⟩ := reconstructStep_inOrder va path s c ho
      simp only [reconstructLoop, hs1] at h
      rw [ih s1 s' h, hfl]; simp

theorem reconstructFinish_flatten (s : ReconState) :
    ((reconstructFinish s).map Release.changes).flatten
      = (s.output.map Release.changes).flatten ++ s.currentBucket := by
  unfold reconstructFinish
  split_ifs with h
  · simp [closeBucket]
  · simp at h; simp [h]

theorem newestFirst_adjacent (cs : List Commit) (h : newestFirst cs) :
    ∀ (i : Nat) (a b : Commit), cs[i]? = some a → cs[i + 1]? = some b →
      b.timestamp ≤ a.timestamp := by
  induction cs with
  | nil => intro i a b ha; simp at ha
  | cons x t ih =>
    intro i a b ha hb
    cases t with
    | nil => simp at hb
    | cons y t' =>
      simp only [newestFirst] at h
      cases i with
      | zero =>
        simp at ha hb
        subst ha; subst hb
        exact h.1
      | succ j =>
        rw [List.getElem?_cons_succ] at ha hb
        exact ih h.2 j a b ha hb

theorem not_newestFirst_adjacent (cs : List Commit) (h : ¬ newestFirst cs) :
    ∃ (i : Nat) (a b : Commit), cs[i]? = some a ∧ cs[i + 1]? = some b ∧
      a.timestamp < b.timestamp := by
  induction cs with
  | nil => simp [newestFirst] at h
  | cons x t ih =>
    cases t with
    | nil => simp [newestFirst] at h
    | cons y t' =>
      by_cases hxy : y.timestamp ≤ x.timestamp
      · have ht : ¬ newestFirst (y :: t') := fun hc => h (by simp only [newestFirst]; exact ⟨hxy, hc⟩)
        obtain ⟨i, a, b, ha, hb, hlt⟩ := ih ht
        exact ⟨i + 1, a, b, by simpa using ha, by simpa using hb, hlt⟩
      · exact ⟨0, x, y, by simp, by simp, not_le.1 hxy⟩

theorem reconstruct_error_iff (va : VersionAt) (path : String) (cs : List Commit) :
    reconstruct va cs path = .error .OrderingViolation ↔ ¬ newestFirst cs := by
  have hl := reconstructLoop_error_iff va path cs ReconState.init
  rw [← orderedFrom_none_iff]
  change _ ↔ ¬ orderedFrom none cs at hl
  rw [← hl]
  unfold reconstruct
  cases h : reconstructLoop va path ReconState.init cs with
  | ok s => simp
  | error e => cases e; simp

theorem wellFormed_init : ReconState.init.WellFormed := by
  simp [ReconState.WellFormed, ReconState.init]

theorem reconstructStep_cases (va : VersionAt) (path : String) (s s' : ReconState)
    (c : Commit) (h : reconstructStep va path s c = .ok s') :
    (va c path ≠ none ∧ va c path ≠ s.currentVersion ∧ s.currentVersion ≠ none ∧
      s' = { currentVersion := va c path, currentBucket := [c],
             output := s.output ++ [closeBucket s.currentVersion s.currentBucket],
             lastTimestamp := some c.timestamp }) ∨
    (s.currentVersion = none ∧
      s' = { currentVersion := va c path, currentBucket := s.currentBucket ++ [c],
             output := s.output, lastTimestamp := some c.timestamp }) ∨
    (s.currentVersion ≠ none ∧ (va c path = none ∨ va c path = s.currentVersion) ∧
      s' = { currentVersion := s.currentVersion, currentBucket := s.currentBucket ++ [c],
             output := s.output, lastTimestamp := some c.timestamp }) := by
  unfold reconstructStep at h
  cases ho : outOfOrder s.lastTimestamp c.timestamp with
  | true => rw [ho] at h; simp at h
  | false =>
    rw [ho] at h
    simp only [Bool.false_eq_true, if_false] at h
    by_cases hb : va c path ≠ none ∧ va c path ≠ s.currentVersion ∧ s.currentVersion ≠ none
    · rw [if_pos hb] at h
      exact Or.inl ⟨hb.1, hb.2.1, hb.2.2, (Except.ok.inj h).symm⟩
    · rw [if_neg hb] at h
      by_cases hc : s.currentVersion = none
      · rw [if_pos hc] at h
        exact Or.inr (Or.inl ⟨hc, (Except.ok.inj h).symm⟩)
      · rw [if_neg hc] at h
        refine Or.inr (Or.inr ⟨hc, ?_, (Except.ok.inj h).symm⟩)
        by_contra hcon
        push_neg at hcon
        exact hb ⟨hcon.1, hcon.2, hc⟩

theorem reconstructStep_wellFormed (va : VersionAt) (path : String) (s s' : ReconState)
    (c : Commit) (hs : s.WellFormed) (h : reconstructStep va path s c = .ok s') :
    s'.WellFormed := by
  obtain ⟨hb, ho⟩ := hs
  rcases reconstructStep_cases va path s s' c h with ⟨_, _, h3, rfl⟩ | ⟨_, rfl⟩ | ⟨_, _, rfl⟩
  · refine ⟨by simp, ?_⟩
    intro r hr
    simp only [List.mem_append, List.mem_singleton] at hr
    rcases hr with hr | hr
    · exact ho r hr
    · subst hr; exact hb h3
  · exact ⟨by simp, ho⟩
  · exact ⟨by simp, ho⟩

theorem reconstructLoop_wellFormed (va : VersionAt) (path : String) (cs : List Commit) :
    ∀ s s', s.WellFormed → reconstructLoop va path s cs = .ok s' → s'.WellFormed := by
  induction cs with
  | nil => intro s s' hs h; simp [reconstructLoop] at h; subst h; exact hs
  | cons c cs ih =>
    intro s s' hs h
    unfold reconstructLoop at h
    cases h1 : reconstructStep va path s c with
    | error e => simp [h1] at h
    | ok s1 =>
      simp only [h1] at h
      exact ih s1 s' (reconstructStep_wellFormed va path s s1 c hs h1) h

theorem reconstructFinish_nonempty (s : ReconState) (hs : s.WellFormed) :
    ∀ r ∈ reconstructFinish s, r.changes ≠ [] := by
  intro r hr
  unfold reconstructFinish at hr
  split_ifs at hr with h
  · simp only [List.mem_append, List.mem_singleton] at hr
    rcases hr with hr | hr
    · exact hs.2 r hr
    · subst hr; exact h
  · exact hs.2 r hr

theorem reconstruct_ok_of_newestFirst (va : VersionAt) (path : String) (cs : List Commit)
    (hord : newestFirst cs) :
    ∃ s, reconstructLoop va path ReconState.init cs = .ok s ∧
      reconstruct va cs path = .ok (reconstructFinish s) := by
  obtain ⟨s, hs⟩ := reconstructLoop_ok_of_ordered va path cs ReconState.init
    ((orderedFrom_none_iff cs).2 hord)
  exact ⟨s, hs, by simp [reconstruct, hs]⟩

/-- C1. For every newest-first commit sequence (the non-empty ones included)
reconstruction returns a release list whose `changes`, concatenated in release order,
are the input sequence itself: every input commit occurs in exactly one
release and once there, no release holds a commit that is not in the input,
and no release is empty. -/
theorem reconstruct_partitions_input (va : VersionAt) (path : String) (cs : List Commit)
    (hord : newestFirst cs) :
    ∃ rs, reconstruct va cs path = .ok rs ∧
      (rs.map Release.changes).flatten = cs ∧
      (∀ r ∈ rs, r.changes ≠ []) ∧
      (∀ r ∈ rs, ∀ c ∈ r.changes, c ∈ cs) ∧
      (cs ≠ [] → rs ≠ []) := by
  obtain ⟨s, hs, hrec⟩ := reconstruct_ok_of_newestFirst va path cs hord
  have hfl : ((reconstructFinish s).map Release.changes).flatten = cs := by
    rw [reconstructFinish_flatten, reconstructLoop_flatten va path cs _ s hs]
    simp [ReconState.init]
  refine ⟨reconstructFinish s, hrec, hfl, ?_, ?_, ?_⟩
  · exact reconstructFinish_nonempty s
      (reconstructLoop_wellFormed va path cs _ s wellFormed_init hs)
  · intro r hr c hc
    rw [← hfl]
    exact List.mem_flatten.2 ⟨r.changes, List.mem_map.2 ⟨r, hr, rfl⟩, hc⟩
  · intro hne hnil
    rw [hnil] at hfl
    exact hne (by simpa using hfl.symm)

theorem reconstruct_partitions_input_witness :
    newestFirst [mkCommit "c0" 30, mkCommit "c1" 20, mkCommit "c2" 20] ∧
    ∃ rs, reconstruct (tableVersionAt [("c0", "2.0"), ("c2", "1.0")])
        [mkCommit "c0" 30, mkCommit "c1" 20, mkCommit "c2" 20] "Chart.yaml" = .ok rs ∧
      (rs.map Release.changes).flatten = [mkCommit "c0" 30, mkCommit "c1" 20, mkCommit "c2" 20] ∧
      (∀ r ∈ rs, r.changes ≠ []) ∧
      (∀ r ∈ rs, ∀ c ∈ r.changes, c ∈ [mkCommit "c0" 30, mkCommit "c1" 20, mkCommit "c2" 20]) ∧
      ([mkCommit "c0" 30, mkCommit "c1" 20, mkCommit "c2" 20] ≠ [] → rs ≠ []) :=
  ⟨by decide, reconstruct_partitions_input _ _ _ (by decide)⟩

/-- C8. Reconstruction fails exactly on input that is not newest-first: it
returns `OrderingViolation` if and only if some commit has a later timestamp than the
commit before it, and it returns a release list if and only if the timestamps
are non-increasing. -/
theorem reconstruct_fails_exactly_out_of_order (va : VersionAt) (path : String)
    (cs : List Commit) :
    (reconstruct va cs path = .error .OrderingViolation ↔
      ∃ (i : Nat) (a b : Commit), cs[i]? = some a ∧ cs[i + 1]? = some b ∧
        a.timestamp < b.timestamp) ∧
    ((∃ rs, reconstruct va cs path = .ok rs) ↔ newestFirst cs) := by
  constructor
  · rw [reconstruct_error_iff]
    constructor
    · exact not_newestFirst_adjacent cs
    · rintro ⟨i, a, b, ha, hb, hlt⟩ hn
      exact absurd (newestFirst_adjacent cs hn i a b ha hb) (not_le.2 hlt)
  · constructor
    · rintro ⟨rs, hrs⟩
      by_contra hn
      rw [(reconstruct_error_iff va path cs).2 hn] at hrs
      cases hrs
    · intro hn
      obtain ⟨s, _, hrec⟩ := reconstruct_ok_of_newestFirst va path cs hn
      exact ⟨reconstructFinish s, hrec⟩

theorem reconstruct_fails_exactly_out_of_order_witness :
    reconstruct sampleVersions misorderedCommits "Chart.yaml" = .error .OrderingViolation ∧
    (∃ (i : Nat) (a b : Commit), misorderedCommits[i]? = some a ∧
      misorderedCommits[i + 1]? = some b ∧ a.timestamp < b.timestamp) ∧
    ∃ rs, reconstruct sampleVersions boundaryCommits "Chart.yaml" = .ok rs :=
  ⟨by decide,
    (reconstruct_fails_exactly_out_of_order sampleVersions "Chart.yaml" misorderedCommits).1.1
      (by decide),
    (reconstruct_fails_exactly_out_of_order sampleVersions "Chart.yaml" boundaryCommits).2.2
      (by decide)⟩

theorem uniform_init (va : VersionAt) (path : String) : ReconState.init.Uniform va path := by
  simp [ReconState.Uniform, ReconState.init]

theorem reconstructStep_uniform (va : VersionAt) (path : String) (s s' : ReconState)
    (c : Commit) (hc : va c path ≠ none) (hs : s.Uniform va path)
    (h : reconstructStep va path s c = .ok s') : s'.Uniform va path := by
  obtain ⟨h0, hb, ho⟩ := hs
  rcases reconstructStep_cases va path s s' c h with ⟨_, _, _, rfl⟩ | ⟨hn, rfl⟩ | ⟨_, hv, rfl⟩
  · refine ⟨fun hh => absurd hh hc, by simp, ?_⟩
    intro r hr
    simp only [List.mem_append, List.mem_singleton] at hr
    rcases hr with hr | hr
    · exact ho r hr
    · subst hr; exact hb
  · refine ⟨fun hh => absurd hh hc, ?_, ho⟩
    simp [h0 hn]
  · rcases hv with hv | hv
    · exact absurd hv hc
    · refine ⟨fun hh => absurd (hv.trans hh) hc, ?_, ho⟩
      intro x hx
      simp only [List.mem_append, List.mem_singleton] at hx
      rcases hx with hx | hx
      · exact hb x hx
      · subst hx; exact hv

theorem reconstructLoop_uniform (va : VersionAt) (path : String) (cs : List Commit) :
    ∀ s s', (∀ c ∈ cs, va c path ≠ none) → s.Uniform va path →
      reconstructLoop va path s cs = .ok s' → s'.Uniform va path := by
  induction cs with
  | nil => intro s s' _ hs h; simp [reconstructLoop] at h; subst h; exact hs
  | cons c cs ih =>
    intro s s' hk hs h
    unfold reconstructLoop at h
    cases h1 : reconstructStep va path s c with
    | error e => simp [h1] at h
    | ok s1 =>
      simp only [h1] at h
      exact ih s1 s' (fun x hx => hk x (List.mem_cons_of_mem _ hx))
        (reconstructStep_uniform va path s s1 c (hk c (List.mem_cons_self _ _)) hs h1) h

theorem reconstructFinish_uniform (va : VersionAt) (path : String) (s : ReconState)
    (hs : s.Uniform va path) :
    ∀ r ∈ reconstructFinish s, ∀ c ∈ r.changes, va c path = r.version := by
  intro r hr
  unfold reconstructFinish at hr
  split_ifs at hr with h
  · simp only [List.mem_append, List.mem_singleton] at hr
    rcases hr with hr | hr
    · exact hs.2.2 r hr
    · subst hr; exact hs.2.1
  · exact hs.2.2 r hr

theorem reconstructLoop_splitBy (va : VersionAt) (path : String) (cs : List Commit) :
    ∀ (ag : Commit) (g : List Commit) (gs : List (List Commit)) (s s' : ReconState),
      (∀ c ∈ cs, va c path ≠ none) → s.currentVersion = va ag path →
      s.currentVersion ≠ none → s.currentBucket = (ag :: g).reverse →
      s.output.map Release.changes = gs.reverse →
      reconstructLoop va path s cs = .ok s' →
      (reconstructFinish s').map Release.changes
        = List.splitBy.loop (fun a b => va a path == va b path) cs ag g gs := by
  induction cs with
  | nil =>
    intro ag g gs s s' _ _ _ hb ho h
    simp only [reconstructLoop, Except.ok.injEq] at h
    subst h
    have hne : s.currentBucket ≠ [] := by rw [hb]; simp
    simp [reconstructFinish, hne, List.splitBy.loop, ho, closeBucket, hb]
  | cons a as ih =>
    intro ag g gs s s' hk hv hn hb ho h
    unfold reconstructLoop at h
    cases h1 : reconstructStep va path s a with
    | error e => simp [h1] at h
    | ok s1 =>
      simp only [h1] at h
      have hk' : ∀ c ∈ as, va c path ≠ none := fun x hx => hk x (List.mem_cons_of_mem _ hx)
      have ha : va a path ≠ none := hk a (List.mem_cons_self _ _)
      rcases reconstructStep_cases va path s s1 a h1 with
        ⟨_, hne, _, rfl⟩ | ⟨hnone, _⟩ | ⟨_, hsame, rfl⟩
      · have hR : (va ag path == va a path) = false := by
          rw [beq_eq_false_iff_ne]; rw [← hv]; exact fun hh => hne hh.symm
        rw [List.splitBy.loop, hR]
        exact ih a [] ((ag :: g).reverse :: gs)
          ⟨va a path, [a], s.output ++ [closeBucket s.currentVersion s.currentBucket],
            some a.timestamp⟩ s' hk' rfl ha (by simp)
          (by simp [ho, closeBucket, hb]) h
      · exact absurd hnone hn
      · rcases hsame with hsame | hsame
        · exact absurd hsame ha
        · have hR : (va ag path == va a path) = true := by
            rw [beq_iff_eq, ← hv, hsame]
          rw [List.splitBy.loop, hR]
          exact ih a (ag :: g) gs
            ⟨s.currentVersion, s.currentBucket ++ [a], s.output, some a.timestamp⟩ s' hk'
            hsame.symm hn (by simp [hb]) ho h

theorem reconstruct_splitBy (va : VersionAt) (path : String) (cs : List Commit)
    (hk : ∀ c ∈ cs, va c path ≠ none) (s : ReconState)
    (h : reconstructLoop va path ReconState.init cs = .ok s) :
    (reconstructFinish s).map Release.changes
      = cs.splitBy (fun a b => va a path == va b path) := by
  cases cs with
  | nil =>
    simp only [reconstructLoop, Except.ok.injEq] at h
    subst h
    simp [reconstructFinish, ReconState.init]
  | cons a as =>
    unfold reconstructLoop at h
    cases h1 : reconstructStep va path ReconState.init a with
    | error e => simp [h1] at h
    | ok s1 =>
      simp only [h1] at h
      have ha : va a path ≠ none := hk a (List.mem_cons_self _ _)
      rcases reconstructStep_cases va path _ s1 a h1 with
        ⟨_, _, hcon, _⟩ | ⟨_, rfl⟩ | ⟨hcon, _⟩
      · exact absurd rfl hcon
      · rw [List.splitBy]
        exact reconstructLoop_splitBy va path as a [] [] _ s
          (fun x hx => hk x (List.mem_cons_of_mem _ hx)) rfl ha (by simp [ReconState.init])
          (by simp [ReconState.init]) h
      · exact absurd rfl hcon


theorem splitBy_versions_differ (va : VersionAt) (path : String) (cs : List Commit)
    (rs : List Release)
    (hsplit : rs.map Release.changes = cs.splitBy (fun a b => va a path == va b path))
    (huni : ∀ r ∈ rs, ∀ c ∈ r.changes, va c path = r.version) :
    List.Chain' (fun r1 r2 => r1.version ≠ r2.version) rs := by
  have h := List.chain'_getLast_head_splitBy (fun a b => va a path == va b path) cs
  rw [← hsplit, List.chain'_map] at h
  rw [List.Chain'.iff_mem] at h
  refine List.Chain'.imp ?_ h
  rintro r1 r2 ⟨hr1, hr2, ha, hb, hne⟩
  have h1 := huni r1 hr1 _ (List.getLast_mem ha)
  have h2 := huni r2 hr2 _ (List.head_mem hb)
  rw [beq_eq_false_iff_ne, h1, h2] at hne
  exact hne

/-- C2. For every newest-first commit sequence whose commits all have a known
version, reconstruction returns one release per maximal run of consecutive commits
of equal version, in input order: the lists of `changes` are the runs (`List.splitBy`
on equal versions), they concatenate to the input, each release is non-empty and
carries the version of every one of its commits, and adjacent releases differ in
version, so equal versions in separate runs stay separate. In particular commits
that all have one version give a single release holding all of them. -/
theorem reconstruct_one_release_per_run (va : VersionAt) (path : String) (cs : List Commit)
    (hord : newestFirst cs) (hknown : ∀ c ∈ cs, va c path ≠ none) :
    ∃ rs, reconstruct va cs path = .ok rs ∧
      rs.map Release.changes = cs.splitBy (fun a b => va a path == va b path) ∧
      (rs.map Release.changes).flatten = cs ∧
      (∀ r ∈ rs, r.changes ≠ [] ∧ ∀ c ∈ r.changes, va c path = r.version) ∧
      List.Chain' (fun r1 r2 => r1.version ≠ r2.version) rs ∧
      (∀ v, cs ≠ [] → (∀ c ∈ cs, va c path = some v) →
        rs.map (fun r => (r.version, r.changes)) = [(some v, cs)]) := by
  obtain ⟨s, hs, hrec⟩ := reconstruct_ok_of_newestFirst va path cs hord
  have hsplit := reconstruct_splitBy va path cs hknown s hs
  have huni := reconstructFinish_uniform va path s
    (reconstructLoop_uniform va path cs _ s hknown (uniform_init va path) hs)
  have hne := reconstructFinish_nonempty s
    (reconstructLoop_wellFormed va path cs _ s wellFormed_init hs)
  have hfl : ((reconstructFinish s).map Release.changes).flatten = cs := by
    rw [hsplit, List.flatten_splitBy]
  have hch := splitBy_versions_differ va path cs _ hsplit huni
  refine ⟨reconstructFinish s, hrec, hsplit, hfl, fun r hr => ⟨hne r hr, huni r hr⟩, hch, ?_⟩
  intro v hcs hall
  have hver : ∀ r ∈ reconstructFinish s, r.version = some v := by
    intro r hr
    obtain ⟨c, hc⟩ := List.exists_mem_of_ne_nil _ (hne r hr)
    have hmem : c ∈ cs := by
      rw [← hfl]
      exact List.mem_flatten.2 ⟨r.changes, List.mem_map.2 ⟨r, hr, rfl⟩, hc⟩
    rw [← huni r hr c hc]
    exact hall c hmem
  generalize reconstructFinish s = rs at hfl hch hver
  match rs, hfl, hch, hver with
  | [], hfl, _, _ => simp at hfl; exact absurd hfl.symm (fun hh => hcs hh.symm)
  | [r], hfl, _, hver =>
    simp at hfl
    simp [hfl, hver r (List.mem_singleton_self r)]
  | r1 :: r2 :: t, _, hch, hver =>
    have h1 := hver r1 (by simp)
    have h2 := hver r2 (by simp)
    have := (List.chain'_cons.1 hch).1
    exact absurd (h1.trans h2.symm) this


theorem reconstruct_one_release_per_run_witness :
    (newestFirst boundaryCommits ∧ (∀ c ∈ boundaryCommits, sampleVersions c "Chart.yaml" ≠ none) ∧
      ∃ rs, reconstruct sampleVersions boundaryCommits "Chart.yaml" = .ok rs ∧
        rs.map Release.changes
          = boundaryCommits.splitBy
              (fun a b => sampleVersions a "Chart.yaml" == sampleVersions b "Chart.yaml") ∧
        (rs.map Release.changes).flatten = boundaryCommits ∧
        (∀ r ∈ rs, r.changes ≠ [] ∧ ∀ c ∈ r.changes, sampleVersions c "Chart.yaml" = r.version) ∧
        List.Chain' (fun r1 r2 => r1.version ≠ r2.version) rs ∧
        (∀ v, boundaryCommits ≠ [] → (∀ c ∈ boundaryCommits, sampleVersions c "Chart.yaml" = some v) →
          rs.map (fun r => (r.version, r.changes)) = [(some v, boundaryCommits)])) ∧
    reconstruct sampleVersions boundaryCommits "Chart.yaml"
      = .ok [{ version := some "2.0", releaseTimestamp := some 40,
               changes := [mkCommit "a0" 40, mkCommit "a1" 30] },
             { version := some "1.0", releaseTimestamp := some 20,
               changes := [mkCommit "a2" 20, mkCommit "a3" 10] }] ∧
    reconstruct sampleVersions revertCommits "Chart.yaml"
      = .ok [{ version := some "1.0", releaseTimestamp := some 30, changes := [mkCommit "r0" 30] },
             { version := some "2.0", releaseTimestamp := some 20, changes := [mkCommit "r1" 20] },
             { version := some "1.0", releaseTimestamp := some 10, changes := [mkCommit "r2" 10] }] ∧
    reconstruct sampleVersions singleVersionCommits "Chart.yaml"
      = .ok [{ version := some "3.1", releaseTimestamp := some 30,
               changes := singleVersionCommits }] :=
  ⟨⟨by decide, by decide,
    reconstruct_one_release_per_run sampleVersions "Chart.yaml" boundaryCommits
      (by decide) (by decide)⟩, by decide, by decide, by decide⟩

theorem reconstructStep_boundary (va : VersionAt) (path : String) (s : ReconState) (c : Commit)
    (ho : outOfOrder s.lastTimestamp c.timestamp = false) (h1 : va c path ≠ none)
    (h2 : va c path ≠ s.currentVersion) (h3 : s.currentVersion ≠ none) :
    reconstructStep va path s c = .ok
      { currentVersion := va c path, currentBucket := [c],
        output := s.output ++ [closeBucket s.currentVersion s.currentBucket],
        lastTimestamp := some c.timestamp } := by
  unfold reconstructStep
  rw [ho]
  simp only [Bool.false_eq_true, if_false]
  rw [if_pos ⟨h1, h2, h3⟩]

theorem reconstructStep_first (va : VersionAt) (path : String) (s : ReconState) (c : Commit)
    (ho : outOfOrder s.lastTimestamp c.timestamp = false) (h3 : s.currentVersion = none) :
    reconstructStep va path s c = .ok
      { currentVersion := va c path, currentBucket := s.currentBucket ++ [c],
        output := s.output, lastTimestamp := some c.timestamp } := by
  unfold reconstructStep
  rw [ho]
  simp only [Bool.false_eq_true, if_false]
  rw [if_neg (fun h => h.2.2 h3), if_pos h3]

theorem reconstructStep_same (va : VersionAt) (path : String) (s : ReconState) (c : Commit)
    (ho : outOfOrder s.lastTimestamp c.timestamp = false) (h3 : s.currentVersion ≠ none)
    (hv : va c path = none ∨ va c path = s.currentVersion) :
    reconstructStep va path s c = .ok
      { currentVersion := s.currentVersion, currentBucket := s.currentBucket ++ [c],
        output := s.output, lastTimestamp := some c.timestamp } := by
  unfold reconstructStep
  rw [ho]
  simp only [Bool.false_eq_true, if_false]
  rw [if_neg (fun h => hv.elim (fun hh => h.1 hh) (fun hh => h.2.1 hh)), if_neg h3]

theorem reconstructStep_ok_inOrder (va : VersionAt) (path : String) (s s' : ReconState)
    (c : Commit) (h : reconstructStep va path s c = .ok s') :
    outOfOrder s.lastTimestamp c.timestamp = false := by
  cases ho : outOfOrder s.lastTimestamp c.timestamp with
  | false => rfl
  | true => rw [reconstructStep_outOfOrder va path s c ho] at h; cases h

theorem reconstructLoop_append (va : VersionAt) (path : String) (xs ys : List Commit) :
    ∀ s, reconstructLoop va path s (xs ++ ys) =
      match reconstructLoop va path s xs with
      | .error e => .error e
      | .ok s1 => reconstructLoop va path s1 ys := by
  induction xs with
  | nil => intro s; simp [reconstructLoop]
  | cons x xs ih =>
    intro s
    simp only [List.cons_append, reconstructLoop]
    cases reconstructStep va path s x with
    | error e => rfl
    | ok s1 => exact ih s1

theorem reconstructStep_prepend (va : VersionAt) (path : String) (front : List Release)
    (s s' : ReconState) (c : Commit) (h : reconstructStep va path s c = .ok s') :
    reconstructStep va path (s.prepend front) c = .ok (s'.prepend front) := by
  have ho := reconstructStep_ok_inOrder va path s s' c h
  rcases reconstructStep_cases va path s s' c h with ⟨h1, h2, h3, rfl⟩ | ⟨h3, rfl⟩ | ⟨h3, hv, rfl⟩
  · rw [reconstructStep_boundary va path (s.prepend front) c ho h1 h2 h3]
    simp [ReconState.prepend]
  · rw [reconstructStep_first va path (s.prepend front) c ho h3]
    simp [ReconState.prepend]
  · rw [reconstructStep_same va path (s.prepend front) c ho h3 hv]
    simp [ReconState.prepend]

theorem reconstructLoop_prepend (va : VersionAt) (path : String) (front : List Release)
    (cs : List Commit) :
    ∀ s s', reconstructLoop va path s cs = .ok s' →
      reconstructLoop va path (s.prepend front) cs = .ok (s'.prepend front) := by
  induction cs with
  | nil => intro s s' h; simp only [reconstructLoop, Except.ok.injEq] at h ⊢; rw [h]
  | cons c cs ih =>
    intro s s' h
    unfold reconstructLoop at h ⊢
    cases h1 : reconstructStep va path s c with
    | error e => simp [h1] at h
    | ok s1 =>
      simp only [h1] at h
      rw [reconstructStep_prepend va path front s s1 c h1]
      exact ih s1 s' h

theorem reconstructFinish_prepend (front : List Release) (s : ReconState) :
    reconstructFinish (s.prepend front) = front ++ reconstructFinish s := by
  unfold reconstructFinish ReconState.prepend
  split_ifs <;> simp

theorem reconstructLoop_ordered (va : VersionAt) (path : String) (cs : List Commit)
    (s s' : ReconState) (h : reconstructLoop va path s cs = .ok s') :
    orderedFrom s.lastTimestamp cs := by
  by_contra hn
  rw [(reconstructLoop_error_iff va path cs s).2 hn] at h
  cases h


theorem reconstructLoop_twin (va : VersionAt) (path : String) (c : Commit) (B : List Commit)
    (hB : B ≠ []) (out : List Release) (post : List Commit) :
    ∀ (cur : Option String) (X : List Commit) (l1 l2 : Option Int) (s2 : ReconState),
      reconstructLoop va path ⟨cur, B ++ c :: X, out, l2⟩ post = .ok s2 →
      orderedFrom l1 post →
      ∃ s1, reconstructLoop va path ⟨cur, B ++ X, out, l1⟩ post = .ok s1 ∧
        ∃ (v : Option String) (b : List Commit) (rs2 : List Release),
          reconstructFinish s2
            = out ++ ⟨v, B.head?.map Commit.timestamp, B ++ c :: (X ++ b)⟩ :: rs2 ∧
          reconstructFinish s1
            = out ++ ⟨v, B.head?.map Commit.timestamp, B ++ (X ++ b)⟩ :: rs2 ∧
          (cur ≠ none → v = cur) := by
  induction post with
  | nil =>
    intro cur X l1 l2 s2 h _
    simp only [reconstructLoop, Except.ok.injEq] at h
    subst h
    refine ⟨_, rfl, cur, [], [], ?_, ?_, fun _ => rfl⟩
    · simp [reconstructFinish, closeBucket, List.head?_append_of_ne_nil _ hB]
    · simp [reconstructFinish, closeBucket, List.head?_append_of_ne_nil _ hB, hB]
  | cons d post ih =>
    intro cur X l1 l2 s2 h hord
    obtain ⟨ho1, hrest⟩ := hord
    unfold reconstructLoop at h
    cases h1 : reconstructStep va path ⟨cur, B ++ c :: X, out, l2⟩ d with
    | error e => simp [h1] at h
    | ok t2 =>
      simp only [h1] at h
      rcases reconstructStep_cases va path _ t2 d h1 with
        ⟨hv1, hv2, hv3, rfl⟩ | ⟨hv3, rfl⟩ | ⟨hv3, hv, rfl⟩
      · -- a version boundary: both buckets are closed
        dsimp only at hv2 hv3 h
        obtain ⟨r, hr⟩ := reconstructLoop_ok_of_ordered va path post
          ⟨va d path, [d], [], some d.timestamp⟩ hrest
        have h2 := reconstructLoop_prepend va path (out ++ [closeBucket cur (B ++ c :: X)])
          post _ r hr
        have h1' := reconstructLoop_prepend va path (out ++ [closeBucket cur (B ++ X)])
          post _ r hr
        have e2 : ReconState.prepend (out ++ [closeBucket cur (B ++ c :: X)])
            ⟨va d path, [d], [], some d.timestamp⟩
            = ⟨va d path, [d], out ++ [closeBucket cur (B ++ c :: X)], some d.timestamp⟩ := by
          simp [ReconState.prepend]
        have e1 : ReconState.prepend (out ++ [closeBucket cur (B ++ X)])
            ⟨va d path, [d], [], some d.timestamp⟩
            = ⟨va d path, [d], out ++ [closeBucket cur (B ++ X)], some d.timestamp⟩ := by
          simp [ReconState.prepend]
        rw [e2] at h2
        rw [e1] at h1'
        rw [h2] at h
        have hs2 := Except.ok.inj h
        subst hs2
        refine ⟨r.prepend (out ++ [closeBucket cur (B ++ X)]), ?_, cur, [],
          reconstructFinish r, ?_, ?_, fun _ => rfl⟩
        · unfold reconstructLoop
          rw [reconstructStep_boundary va path ⟨cur, B ++ X, out, l1⟩ d ho1 hv1 hv2 hv3]
          exact h1'
        · rw [reconstructFinish_prepend]
          simp [closeBucket, List.head?_append_of_ne_nil _ hB]
        · rw [reconstructFinish_prepend]
          simp [closeBucket, List.head?_append_of_ne_nil _ hB]
      · -- no version is current yet: the reading is adopted, the commit appended
        dsimp only at hv3 h
        have h' : reconstructLoop va path ⟨va d path, B ++ c :: (X ++ [d]), out,
            some d.timestamp⟩ post = .ok s2 := by
          rw [← h]; simp
        obtain ⟨s1, hs1, v, b, rs2, e2, e1, _⟩ :=
          ih (va d path) (X ++ [d]) (some d.timestamp) (some d.timestamp) s2 h' hrest
        refine ⟨s1, ?_, v, d :: b, rs2, ?_, ?_, fun hc => absurd hv3 hc⟩
        · unfold reconstructLoop
          rw [reconstructStep_first va path ⟨cur, B ++ X, out, l1⟩ d ho1 hv3]
          rw [← hs1]; simp
        · rw [e2]; simp
        · rw [e1]; simp
      · -- the current version stays: the commit is appended
        dsimp only at hv3 hv h
        have h' : reconstructLoop va path ⟨cur, B ++ c :: (X ++ [d]), out,
            some d.timestamp⟩ post = .ok s2 := by
          rw [← h]; simp
        obtain ⟨s1, hs1, v, b, rs2, e2, e1, hvc⟩ :=
          ih cur (X ++ [d]) (some d.timestamp) (some d.timestamp) s2 h' hrest
        refine ⟨s1, ?_, v, d :: b, rs2, ?_, ?_, hvc⟩
        · unfold reconstructLoop
          rw [reconstructStep_same va path ⟨cur, B ++ X, out, l1⟩ d ho1 hv3 hv]
          rw [← hs1]; simp
        · rw [e2]; simp
        · rw [e1]; simp


theorem reconstructStep_known (va : VersionAt) (path : String) (s s' : ReconState) (c : Commit)
    (h : reconstructStep va path s c = .ok s')
    (hk : s.currentVersion ≠ none ∨ va c path ≠ none) : s'.currentVersion ≠ none := by
  rcases reconstructStep_cases va path s s' c h with ⟨h1, _, _, rfl⟩ | ⟨h3, rfl⟩ | ⟨h3, _, rfl⟩
  · exact h1
  · exact hk.elim (fun hh => absurd h3 hh) id
  · exact h3

theorem reconstructLoop_known (va : VersionAt) (path : String) (cs : List Commit) :
    ∀ s s', reconstructLoop va path s cs = .ok s' →
      (s.currentVersion ≠ none ∨ ∃ k ∈ cs, va k path ≠ none) → s'.currentVersion ≠ none := by
  induction cs with
  | nil =>
    intro s s' h hk
    simp only [reconstructLoop, Except.ok.injEq] at h
    subst h
    rcases hk with hk | ⟨k, hk, _⟩
    · exact hk
    · simp at hk
  | cons c cs ih =>
    intro s s' h hk
    unfold reconstructLoop at h
    cases h1 : reconstructStep va path s c with
    | error e => simp [h1] at h
    | ok s1 =>
      simp only [h1] at h
      refine ih s1 s' h ?_
      rcases hk with hk | ⟨k, hk, hv⟩
      · exact Or.inl (reconstructStep_known va path s s1 c h1 (Or.inl hk))
      · rcases List.mem_cons.1 hk with rfl | hk
        · exact Or.inl (reconstructStep_known va path s s1 k h1 (Or.inr hv))
        · exact Or.inr ⟨k, hk, hv⟩

theorem reconstructLoop_snoc (va : VersionAt) (path : String) (xs : List Commit) (p : Commit)
    (s s' : ReconState) (h : reconstructLoop va path s (xs ++ [p]) = .ok s') :
    (∃ a, s'.currentBucket = a ++ [p]) ∧ s'.lastTimestamp = some p.timestamp := by
  rw [reconstructLoop_append] at h
  cases h0 : reconstructLoop va path s xs with
  | error e => simp [h0] at h
  | ok s0 =>
    simp only [h0] at h
    unfold reconstructLoop at h
    cases h1 : reconstructStep va path s0 p with
    | error e => simp [h1] at h
    | ok s1 =>
      simp only [h1, reconstructLoop, Except.ok.injEq] at h
      subst h
      rcases reconstructStep_cases va path s0 s1 p h1 with ⟨_, _, _, rfl⟩ | ⟨_, rfl⟩ | ⟨_, _, rfl⟩
      · exact ⟨⟨[], rfl⟩, rfl⟩
      · exact ⟨⟨_, rfl⟩, rfl⟩
      · exact ⟨⟨_, rfl⟩, rfl⟩

theorem orderedFrom_of_le (p c : Int) (post : List Commit)
    (hpc : outOfOrder (some p) c = false) (h : orderedFrom (some c) post) :
    orderedFrom (some p) post := by
  cases post with
  | nil => trivial
  | cons d post =>
    obtain ⟨hd, hrest⟩ := h
    refine ⟨?_, hrest⟩
    simp only [outOfOrder, decide_eq_false_iff_not, not_lt] at hpc hd ⊢
    exact le_trans hd hpc

/-- C7. In a newest-first sequence, a commit `c` of `Unknown` version that comes
after at least one commit of known version lands in the release of the commit `p`
immediately before it: the result is the result for the sequence without `c`, with
`c` inserted right after `p` in that one release, so `c` opens no release and
leaves the release's version, which is a known one, as it was. -/
theorem unknown_absorbed_into_previous_release (va : VersionAt) (path : String)
    (pre : List Commit) (p c : Commit) (post : List Commit)
    (hord : newestFirst (pre ++ p :: c :: post)) (hc : va c path = none)
    (hk : ∃ k ∈ pre ++ [p], va k path ≠ none) :
    ∃ (rs1 rs2 : List Release) (v : Option String) (t : Option Int) (a b : List Commit),
      reconstruct va (pre ++ p :: c :: post) path
        = .ok (rs1 ++ ⟨v, t, a ++ p :: c :: b⟩ :: rs2) ∧
      reconstruct va (pre ++ p :: post) path
        = .ok (rs1 ++ ⟨v, t, a ++ p :: b⟩ :: rs2) ∧
      (rs1.map Release.changes).flatten ++ a = pre ∧ v ≠ none := by
  obtain ⟨sfull, hfull, hrec⟩ := reconstruct_ok_of_newestFirst va path _ hord
  have hsplit : pre ++ p :: c :: post = (pre ++ [p]) ++ (c :: post) := by simp
  have hsplit' : pre ++ p :: post = (pre ++ [p]) ++ post := by simp
  rw [hsplit, reconstructLoop_append] at hfull
  cases hpre : reconstructLoop va path ReconState.init (pre ++ [p]) with
  | error e => simp [hpre] at hfull
  | ok s =>
    simp only [hpre] at hfull
    have hcur : s.currentVersion ≠ none :=
      reconstructLoop_known va path _ _ s hpre (Or.inr hk)
    obtain ⟨⟨a, ha⟩, hlast⟩ := reconstructLoop_snoc va path pre p _ s hpre
    have hfl := reconstructLoop_flatten va path _ _ s hpre
    obtain ⟨hoc, hpost⟩ := reconstructLoop_ordered va path _ s sfull hfull
    unfold reconstructLoop at hfull
    rw [reconstructStep_same va path s c hoc hcur (Or.inl hc)] at hfull
    simp only [] at hfull
    rw [ha] at hfull
    rw [hlast] at hoc
    obtain ⟨s1, hs1, v, b, rs2, e2, e1, hv⟩ :=
      reconstructLoop_twin va path c (a ++ [p]) (by simp) s.output post s.currentVersion []
        (some p.timestamp) (some c.timestamp) sfull (by simpa using hfull)
        (orderedFrom_of_le _ _ post hoc hpost)
    have hs : (⟨s.currentVersion, a ++ [p] ++ [], s.output, some p.timestamp⟩ : ReconState) = s := by
      cases s
      simp only [List.append_nil] at ha hlast ⊢
      simp [ha, hlast]
    rw [hs] at hs1
    refine ⟨s.output, rs2, v, (a ++ [p]).head?.map Commit.timestamp, a, b, ?_, ?_, ?_, ?_⟩
    · rw [hrec, e2]; simp
    · unfold reconstruct
      rw [hsplit', reconstructLoop_append, hpre]
      simp only [hs1, e1]
      simp
    · rw [ha] at hfl
      simp only [ReconState.init, List.map_nil, List.flatten_nil, List.nil_append,
        ← List.append_assoc] at hfl
      exact List.append_cancel_right hfl
    · rw [hv hcur]; exact hcur

theorem unknown_absorbed_into_previous_release_witness :
    (newestFirst ([] ++ mkCommit "u0" 30 :: mkCommit "u1" 20 :: [mkCommit "u2" 10]) ∧
      sampleVersions (mkCommit "u1" 20) "Chart.yaml" = none ∧
      (∃ k ∈ [] ++ [mkCommit "u0" 30], sampleVersions k "Chart.yaml" ≠ none) ∧
      ∃ (rs1 rs2 : List Release) (v : Option String) (t : Option Int) (a b : List Commit),
        reconstruct sampleVersions ([] ++ mkCommit "u0" 30 :: mkCommit "u1" 20 :: [mkCommit "u2" 10])
            "Chart.yaml"
          = .ok (rs1 ++ ⟨v, t, a ++ mkCommit "u0" 30 :: mkCommit "u1" 20 :: b⟩ :: rs2) ∧
        reconstruct sampleVersions ([] ++ mkCommit "u0" 30 :: [mkCommit "u2" 10]) "Chart.yaml"
          = .ok (rs1 ++ ⟨v, t, a ++ mkCommit "u0" 30 :: b⟩ :: rs2) ∧
        (rs1.map Release.changes).flatten ++ a = [] ∧ v ≠ none) ∧
    reconstruct sampleVersions unknownCommits "Chart.yaml"
      = .ok [{ version := some "2.0", releaseTimestamp := some 30,
               changes := [mkCommit "u0" 30, mkCommit "u1" 20] },
             { version := some "1.0", releaseTimestamp := some 10,
               changes := [mkCommit "u2" 10] }] :=
  ⟨⟨by decide, by decide, by decide,
    unknown_absorbed_into_previous_release sampleVersions "Chart.yaml" [] (mkCommit "u0" 30)
      (mkCommit "u1" 20) [mkCommit "u2" 10] (by decide) (by decide) (by decide)⟩, by decide⟩

/-! ## Lemmas on the root command -/

theorem runChart_completed {σ : Type} (env : Collaborators σ) (cfg : Config)
    (cwd r p : String) (w w1 : σ) (cs : List Commit)
    (h : env.getAllCommits (env.dir p) w = (.ok cs, w1)) :
    runChart env cfg cwd r p w =
      { status := .completed
        trace := [.getAllCommits (env.dir p) (.ok cs),
                  .createHelmReleases (trimPrefix p (r ++ "/")) (env.dir (trimPrefix p (cwd ++ "/")))
                    cs (env.createHelmReleases (trimPrefix p (r ++ "/"))
                      (env.dir (trimPrefix p (cwd ++ "/"))) cs w1).1,
                  .markdown (env.join (env.dir p) cfg.changelogFilename)
                    (env.createHelmReleases (trimPrefix p (r ++ "/"))
                      (env.dir (trimPrefix p (cwd ++ "/"))) cs w1).1]
        world := env.markdown (env.join (env.dir p) cfg.changelogFilename)
          (env.createHelmReleases (trimPrefix p (r ++ "/"))
            (env.dir (trimPrefix p (cwd ++ "/"))) cs w1).1
          (env.createHelmReleases (trimPrefix p (r ++ "/"))
            (env.dir (trimPrefix p (cwd ++ "/"))) cs w1).2 } := by
  simp only [runChart, h]

theorem runChart_fatal {σ : Type} (env : Collaborators σ) (cfg : Config)
    (cwd r p : String) (w w1 : σ) (e : GoError)
    (h : env.getAllCommits (env.dir p) w = (.error e, w1)) :
    runChart env cfg cwd r p w =
      { status := .fatal, trace := [.getAllCommits (env.dir p) (.error e), .fatal], world := w1 } := by
  simp only [runChart, h]

theorem runChart_cases {σ : Type} (env : Collaborators σ) (p : String) (w : σ) :
    (∃ e w1, env.getAllCommits (env.dir p) w = (.error e, w1)) ∨
    (∃ cs w1, env.getAllCommits (env.dir p) w = (.ok cs, w1)) := by
  rcases hg : env.getAllCommits (env.dir p) w with ⟨res, w1⟩
  cases res with
  | error e => exact Or.inl ⟨e, w1, rfl⟩
  | ok cs => exact Or.inr ⟨cs, w1, rfl⟩

theorem runCharts_cons_fatal {σ : Type} (env : Collaborators σ) (cfg : Config) (cwd r : String)
    (x : String) (xs : List String) (w : σ)
    (h : (runChart env cfg cwd r x w).status = .fatal) :
    runCharts env cfg cwd r (x :: xs) w = runChart env cfg cwd r x w := by
  simp only [runCharts, h]

theorem runCharts_cons_completed {σ : Type} (env : Collaborators σ) (cfg : Config)
    (cwd r : String) (x : String) (xs : List String) (w : σ)
    (h : (runChart env cfg cwd r x w).status = .completed) :
    runCharts env cfg cwd r (x :: xs) w =
      { status := (runCharts env cfg cwd r xs (runChart env cfg cwd r x w).world).status
        trace := (runChart env cfg cwd r x w).trace ++
          (runCharts env cfg cwd r xs (runChart env cfg cwd r x w).world).trace
        world := (runCharts env cfg cwd r xs (runChart env cfg cwd r x w).world).world } := by
  simp only [runCharts, h]

theorem runCharts_append {σ : Type} (env : Collaborators σ) (cfg : Config) (cwd r : String)
    (xs ys : List String) :
    ∀ w, (runCharts env cfg cwd r xs w).status = .completed →
      runCharts env cfg cwd r (xs ++ ys) w =
        { status := (runCharts env cfg cwd r ys (runCharts env cfg cwd r xs w).world).status
          trace := (runCharts env cfg cwd r xs w).trace ++
            (runCharts env cfg cwd r ys (runCharts env cfg cwd r xs w).world).trace
          world := (runCharts env cfg cwd r ys (runCharts env cfg cwd r xs w).world).world } := by
  induction xs with
  | nil => intro w _; simp [runCharts]
  | cons x xs ih =>
    intro w h
    rw [List.cons_append]
    cases hs : (runChart env cfg cwd r x w).status with
    | fatal =>
      rw [runCharts_cons_fatal env cfg cwd r x xs w hs, hs] at h
      cases h
    | completed =>
      rw [runCharts_cons_completed env cfg cwd r x xs w hs] at h ⊢
      rw [runCharts_cons_completed env cfg cwd r x (xs ++ ys) w hs]
      simp only [] at h ⊢
      rw [ih _ h]
      simp

theorem runCharts_written {σ : Type} (env : Collaborators σ) (cfg : Config) (cwd r : String)
    (files : List String) :
    ∀ w, (runCharts env cfg cwd r files w).status = .completed →
      writtenPaths (runCharts env cfg cwd r files w).trace
        = files.map (fun p => env.join (env.dir p) cfg.changelogFilename) := by
  induction files with
  | nil => intro w _; simp [runCharts, writtenPaths]
  | cons x xs ih =>
    intro w h
    simp only [runCharts] at h ⊢
    rcases runChart_cases env x w with ⟨e, w1, hg⟩ | ⟨cs, w1, hg⟩
    · rw [runChart_fatal env cfg cwd r x w w1 e hg] at h
      simp at h
    · rw [runChart_completed env cfg cwd r x w w1 cs hg] at h ⊢
      simp only [] at h ⊢
      have := ih _ h
      simp only [writtenPaths] at this ⊢
      simp [List.filterMap_append, this, List.filterMap_cons]

theorem runCharts_no_failure {σ : Type} (env : Collaborators σ) (cfg : Config) (cwd r : String)
    (files : List String) :
    ∀ w, (∀ e ∈ (runCharts env cfg cwd r files w).trace, e.failed = false) →
      (runCharts env cfg cwd r files w).status = .completed := by
  induction files with
  | nil => intro w _; simp [runCharts]
  | cons x xs ih =>
    intro w h
    simp only [runCharts] at h ⊢
    rcases runChart_cases env x w with ⟨e, w1, hg⟩ | ⟨cs, w1, hg⟩
    · rw [runChart_fatal env cfg cwd r x w w1 e hg] at h
      have := h (.getAllCommits (env.dir x) (.error e)) (by simp)
      simp [Event.failed] at this
    · rw [runChart_completed env cfg cwd r x w w1 cs hg] at h ⊢
      simp only [] at h ⊢
      exact ih _ (fun e he => h e (List.mem_append_right _ he))

theorem hasPrefix_append (pre t : String) : hasPrefix (pre ++ t) pre = true := by
  simp [hasPrefix, String.data_append]

theorem trimPrefix_append (pre t : String) : trimPrefix (pre ++ t) pre = t := by
  unfold trimPrefix
  rw [hasPrefix_append]
  simp [String.data_append]

theorem hasPrefix_iff (s pre : String) : hasPrefix s pre = true ↔ ∃ t, s = pre ++ t := by
  constructor
  · intro h
    simp only [hasPrefix, List.isPrefixOf_iff_prefix] at h
    obtain ⟨t, ht⟩ := h
    refine ⟨⟨t⟩, ?_⟩
    apply String.ext
    simp [String.data_append, ht]
  · rintro ⟨t, rfl⟩
    exact hasPrefix_append pre t

theorem trimPrefix_unchanged (s pre : String) (h : ¬ ∃ t, s = pre ++ t) :
    trimPrefix s pre = s := by
  unfold trimPrefix
  rw [if_neg]
  rw [hasPrefix_iff]
  exact h


theorem run_of_environment {σ : Type} (env : Collaborators σ) (cfg : Config) (w w1 w2 w3 : σ)
    (cwd r : String) (files : List String)
    (h1 : env.getwd w = (.ok cwd, w1)) (h2 : env.findGitRepositoryRoot w1 = (.ok r, w2))
    (h3 : env.findCharts (env.join cwd cfg.chartsDirectory) w2 = (.ok files, w3)) :
    run env cfg w =
      { status := (runCharts env cfg cwd r files w3).status
        trace := [.getwd (.ok cwd), .findGitRepositoryRoot (.ok r),
                  .findCharts (env.join cwd cfg.chartsDirectory) (.ok files)]
                 ++ (runCharts env cfg cwd r files w3).trace
        world := (runCharts env cfg cwd r files w3).world } := by
  simp only [run, h1, h2, h3]

/-- C3, as the code has it. With two charts discovered and `GetAllCommits` failing
for the first, the run ends in `log.Fatal` at the first chart: the second chart,
whose history could be retrieved, has no history retrieved, no releases
reconstructed and no document written. -/
theorem failed_chart_stops_the_run_counterexample :
    (run (sampleEnv (some "/repo/charts/a")) (flagConfig ⟨none, none, none⟩) 0).status = .fatal ∧
    (run (sampleEnv (some "/repo/charts/a")) (flagConfig ⟨none, none, none⟩) 0).trace
      = [.getwd (.ok "/repo"), .findGitRepositoryRoot (.ok "/repo"),
         .findCharts "/repo" (.ok ["/repo/charts/a/Chart.yaml", "/repo/charts/b/Chart.yaml"]),
         .getAllCommits "/repo/charts/a" (.error "git log failed"), .fatal] ∧
    ((sampleEnv (some "/repo/charts/a")).getAllCommits
        ((sampleEnv (some "/repo/charts/a")).dir "/repo/charts/b/Chart.yaml") 4).1
      = .ok [mkCommit "/repo/charts/b#1" 20, mkCommit "/repo/charts/b#0" 10] ∧
    writtenPaths (run (sampleEnv (some "/repo/charts/a")) (flagConfig ⟨none, none, none⟩) 0).trace
      = [] := by
  decide

/-- C3, amended. When `GetAllCommits` returns an error for a chart, the run ends
there through `log.Fatal`: the charts before it in the list have been processed
in full and their documents written, the failing call is the last call of the
run, and neither the failing chart nor any chart after it gets a reconstruction
or a document. -/
theorem getAllCommits_failure_ends_the_run {σ : Type} (env : Collaborators σ) (cfg : Config)
    (w w1 w2 w3 w4 : σ) (cwd r : String) (before : List String) (p : String)
    (after : List String) (e : GoError)
    (h1 : env.getwd w = (.ok cwd, w1)) (h2 : env.findGitRepositoryRoot w1 = (.ok r, w2))
    (h3 : env.findCharts (env.join cwd cfg.chartsDirectory) w2 = (.ok (before ++ p :: after), w3))
    (hbefore : (runCharts env cfg cwd r before w3).status = .completed)
    (hfail : env.getAllCommits (env.dir p) (runCharts env cfg cwd r before w3).world
      = (.error e, w4)) :
    (run env cfg w).status = .fatal ∧
    (run env cfg w).world = w4 ∧
    (run env cfg w).trace
      = [.getwd (.ok cwd), .findGitRepositoryRoot (.ok r),
         .findCharts (env.join cwd cfg.chartsDirectory) (.ok (before ++ p :: after))]
        ++ (runCharts env cfg cwd r before w3).trace
        ++ [.getAllCommits (env.dir p) (.error e), .fatal] ∧
    writtenPaths (run env cfg w).trace
      = before.map (fun q => env.join (env.dir q) cfg.changelogFilename) := by
  have hp := runChart_fatal env cfg cwd r p _ w4 e hfail
  have hrun : run env cfg w =
      { status := .fatal
        trace := [.getwd (.ok cwd), .findGitRepositoryRoot (.ok r),
                  .findCharts (env.join cwd cfg.chartsDirectory) (.ok (before ++ p :: after))]
                 ++ ((runCharts env cfg cwd r before w3).trace
                 ++ [.getAllCommits (env.dir p) (.error e), .fatal])
        world := w4 } := by
    rw [run_of_environment env cfg w w1 w2 w3 cwd r _ h1 h2 h3,
      runCharts_append env cfg cwd r before (p :: after) w3 hbefore,
      runCharts_cons_fatal env cfg cwd r p after _ (by rw [hp]), hp]
  rw [hrun]
  refine ⟨rfl, rfl, by simp, ?_⟩
  have hw := runCharts_written env cfg cwd r before w3 hbefore
  simp only [writtenPaths] at hw ⊢
  simp [List.filterMap_append, hw]

theorem getAllCommits_failure_ends_the_run_witness :
    (run (sampleEnv (some "/repo/charts/b")) (flagConfig ⟨none, none, none⟩) 0).status = .fatal ∧
    (run (sampleEnv (some "/repo/charts/b")) (flagConfig ⟨none, none, none⟩) 0).world = 7 ∧
    (run (sampleEnv (some "/repo/charts/b")) (flagConfig ⟨none, none, none⟩) 0).trace
      = [.getwd (.ok "/repo"), .findGitRepositoryRoot (.ok "/repo"),
         .findCharts ((sampleEnv (some "/repo/charts/b")).join "/repo"
            (flagConfig ⟨none, none, none⟩).chartsDirectory)
           (.ok (["/repo/charts/a/Chart.yaml"] ++ "/repo/charts/b/Chart.yaml" :: []))]
        ++ (runCharts (sampleEnv (some "/repo/charts/b")) (flagConfig ⟨none, none, none⟩)
              "/repo" "/repo" ["/repo/charts/a/Chart.yaml"] 3).trace
        ++ [.getAllCommits ((sampleEnv (some "/repo/charts/b")).dir "/repo/charts/b/Chart.yaml")
              (.error "git log failed"), .fatal] ∧
    writtenPaths (run (sampleEnv (some "/repo/charts/b")) (flagConfig ⟨none, none, none⟩) 0).trace
      = ["/repo/charts/a/Chart.yaml"].map
          (fun q => (sampleEnv (some "/repo/charts/b")).join
            ((sampleEnv (some "/repo/charts/b")).dir q)
            (flagConfig ⟨none, none, none⟩).changelogFilename) :=
  getAllCommits_failure_ends_the_run (sampleEnv (some "/repo/charts/b"))
    (flagConfig ⟨none, none, none⟩) 0 1 2 3 7 "/repo" "/repo" ["/repo/charts/a/Chart.yaml"]
    "/repo/charts/b/Chart.yaml" [] "git log failed" (by decide) (by decide) (by decide)
    (by decide) (by decide)


/-! ## Lemmas on Go's `path/filepath` -/

theorem intercalate_cons_cons (sep a b : List Char) (t : List (List Char)) :
    List.intercalate sep (a :: b :: t) = a ++ sep ++ List.intercalate sep (b :: t) := by
  simp [List.intercalate, List.intersperse]

theorem intercalate_snoc (sep f : List Char) (E : List (List Char)) (hE : E ≠ []) :
    List.intercalate sep (E ++ [f]) = List.intercalate sep E ++ sep ++ f := by
  induction E with
  | nil => exact absurd rfl hE
  | cons a t ih =>
    cases t with
    | nil => simp [List.intercalate, List.intersperse]
    | cons b t' =>
      have := ih (by simp)
      simp only [List.cons_append] at this ⊢
      rw [intercalate_cons_cons, this, intercalate_cons_cons]
      simp

theorem splitOnP_no_sep (p : Char → Bool) (xs : List Char) :
    ∀ e ∈ xs.splitOnP p, ∀ c ∈ e, p c = false := by
  induction xs with
  | nil => intro e he; simp at he; subst he; simp
  | cons x xs ih =>
    intro e he
    rw [List.splitOnP_cons] at he
    by_cases hx : p x = true
    · rw [if_pos hx, List.mem_cons] at he
      rcases he with he | he
      · rw [he]; simp
      · exact ih e he
    · rw [if_neg hx] at he
      have hne := List.splitOnP_ne_nil p xs
      cases hs : xs.splitOnP p with
      | nil => exact absurd hs hne
      | cons h t =>
        rw [hs] at he ih
        simp only [List.modifyHead] at he
        rw [List.mem_cons] at he
        rcases he with he | he
        · intro c hc
          rw [he] at hc
          rcases List.mem_cons.1 hc with hcx | hc
          · rw [hcx]; simpa using hx
          · exact ih h (by simp) c hc
        · exact ih e (by simp [he])

theorem splitOn_no_slash (xs : List Char) : ∀ e ∈ xs.splitOn '/', '/' ∉ e := by
  intro e he hmem
  have := splitOnP_no_sep (fun c => c == '/') xs e he '/' hmem
  simp at this

theorem uptoLastSlash_append (x f : List Char) (hf : '/' ∉ f) :
    uptoLastSlash (x ++ '/' :: f) = x ++ ['/'] := by
  unfold uptoLastSlash
  have h1 : (x ++ '/' :: f).reverse = f.reverse ++ '/' :: x.reverse := by simp
  rw [h1, List.dropWhile_append_of_pos]
  · simp [List.dropWhile]
  · intro c hc
    have : c ≠ '/' := fun h => hf (by rw [← h]; exact List.mem_reverse.1 hc)
    simpa using this

theorem uptoLastSlash_plain (f : List Char) (hf : '/' ∉ f) : uptoLastSlash f = [] := by
  unfold uptoLastSlash
  have : f.reverse.dropWhile (fun ch => ch != '/') = [] := by
    rw [List.dropWhile_eq_nil_iff]
    intro c hc
    have : c ≠ '/' := fun h => hf (by rw [← h]; exact List.mem_reverse.1 hc)
    simpa using this
  rw [this]; rfl

theorem normElems_nil (r : Bool) : NormElems r [] := by
  simp [NormElems]

theorem normElems_snoc (r : Bool) (ws : List (List Char)) (e : List Char)
    (hws : NormElems r ws) (h0 : e ≠ []) (h1 : e ≠ ['.']) (hs : '/' ∉ e)
    (hr : r = true → e ≠ ['.', '.'])
    (hl : e = ['.', '.'] → ∀ x ∈ ws.getLast?, x = ['.', '.']) :
    NormElems r (ws ++ [e]) := by
  obtain ⟨ha, hb, hc⟩ := hws
  refine ⟨?_, ?_, ?_⟩
  · intro x hx
    rcases List.mem_append.1 hx with hx | hx
    · exact ha x hx
    · rw [List.mem_singleton] at hx; rw [hx]; exact ⟨h0, h1, hs⟩
  · intro hrt hmem
    rcases List.mem_append.1 hmem with hx | hx
    · exact hb hrt hx
    · rw [List.mem_singleton] at hx; exact hr hrt hx.symm
  · rw [List.chain'_append]
    refine ⟨hc, List.chain'_singleton e, ?_⟩
    intro x hx y hy
    simp only [List.head?_cons, Option.mem_def, Option.some.injEq] at hy
    intro hyd
    rw [← hy] at hyd
    exact hl hyd x hx

theorem normElems_dropLast (r : Bool) (ws : List (List Char)) (hws : NormElems r ws) :
    NormElems r ws.dropLast := by
  obtain ⟨ha, hb, hc⟩ := hws
  have hinit := List.dropLast_prefix ws
  exact ⟨fun x hx => ha x (List.mem_of_mem_dropLast hx),
    fun hrt hmem => hb hrt (List.mem_of_mem_dropLast hmem), List.Chain'.prefix hc hinit⟩

theorem cleanStep_norm (r : Bool) (ws : List (List Char)) (e : List Char)
    (hws : NormElems r ws) (he : '/' ∉ e) : NormElems r (cleanStep r ws e) := by
  unfold cleanStep
  by_cases h1 : e = [] ∨ e = ['.']
  · rw [if_pos h1]; exact hws
  · rw [if_neg h1]
    push_neg at h1
    by_cases h2 : e = ['.', '.']
    · rw [if_pos h2]
      cases hl : ws.getLast? with
      | none =>
        cases r with
        | true => exact hws
        | false =>
          exact normElems_snoc false ws e hws h1.1 h1.2 he (by simp)
            (fun _ x hx => by rw [hl] at hx; cases hx)
      | some top =>
        by_cases h3 : top = ['.', '.']
        · simp only [h3, if_true]
          cases r with
          | true => exact hws
          | false =>
            exact normElems_snoc false ws e hws h1.1 h1.2 he (by simp)
              (fun _ x hx => by rw [hl] at hx; cases hx; exact h3)
        · simp only [h3, if_false]
          exact normElems_dropLast r ws hws
    · rw [if_neg h2]
      exact normElems_snoc r ws e hws h1.1 h1.2 he (fun _ => h2) (fun h => absurd h h2)

theorem foldl_cleanStep_norm (r : Bool) (es : List (List Char)) :
    ∀ ws, NormElems r ws → (∀ e ∈ es, '/' ∉ e) → NormElems r (es.foldl (cleanStep r) ws) := by
  induction es with
  | nil => intro ws h _; exact h
  | cons e es ih =>
    intro ws h hs
    exact ih _ (cleanStep_norm r ws e h (hs e (List.mem_cons_self _ _)))
      (fun x hx => hs x (List.mem_cons_of_mem _ hx))

theorem cleanChars_norm (x : List Char) :
    ∃ ws, NormElems (x.head? == some '/') ws ∧
      cleanChars x = renderPath (x.head? == some '/') ws := by
  by_cases hx : x = []
  · subst hx
    exact ⟨[], normElems_nil _, by simp [cleanChars, renderPath]⟩
  · refine ⟨(x.splitOn '/').foldl (cleanStep (x.head? == some '/')) [], ?_, ?_⟩
    · exact foldl_cleanStep_norm _ _ [] (normElems_nil _) (splitOn_no_slash x)
    · simp only [cleanChars, if_neg hx]

theorem foldl_cleanStep_fixed (r : Bool) (comps : List (List Char)) :
    ∀ st, NormElems r (st ++ comps) → comps.foldl (cleanStep r) st = st ++ comps := by
  induction comps with
  | nil => intro st _; simp
  | cons e rest ih =>
    intro st h
    have hstep : cleanStep r st e = st ++ [e] := by
      obtain ⟨ha, hb, hc⟩ := h
      have he := ha e (by simp)
      unfold cleanStep
      rw [if_neg (by push_neg; exact ⟨he.1, he.2.1⟩)]
      by_cases h2 : e = ['.', '.']
      · rw [if_pos h2]
        have hr : r = false := by
          cases r with
          | false => rfl
          | true => exact absurd (by rw [← h2]; simp) (hb rfl)
        subst hr
        cases hl : st.getLast? with
        | none => simp
        | some top =>
          have htop : top = ['.', '.'] := by
            rw [List.chain'_append] at hc
            exact hc.2.2 top (by rw [hl]; rfl) e (by simp) h2
          simp [htop]
      · rw [if_neg h2]
    simp only [List.foldl_cons, hstep]
    rw [ih (st ++ [e]) (by simpa using h)]
    simp

theorem cleanChars_intercalate (E : List (List Char)) (hE : E ≠ [])
    (hs : ∀ e ∈ E, '/' ∉ e) (hne : List.intercalate ['/'] E ≠ []) :
    cleanChars (List.intercalate ['/'] E)
      = renderPath ((List.intercalate ['/'] E).head? == some '/')
          (E.foldl (cleanStep ((List.intercalate ['/'] E).head? == some '/')) []) := by
  simp only [cleanChars, if_neg hne]
  rw [List.splitOn_intercalate E '/' hs hE]

theorem cleanChars_of_elems (E : List (List Char)) (r : Bool) (ws : List (List Char))
    (hE : E ≠ []) (hs : ∀ e ∈ E, '/' ∉ e) (hne : List.intercalate ['/'] E ≠ [])
    (hr : ((List.intercalate ['/'] E).head? == some '/') = r)
    (hfold : E.foldl (cleanStep r) [] = ws) :
    cleanChars (List.intercalate ['/'] E) = renderPath r ws := by
  rw [cleanChars_intercalate E hE hs hne, hr, hfold]

theorem head?_intercalate_cons (sep a : List Char) (t : List (List Char)) (ha : a ≠ []) :
    (List.intercalate sep (a :: t)).head? = a.head? := by
  cases t with
  | nil => simp [List.intercalate]
  | cons b t =>
    rw [intercalate_cons_cons, List.append_assoc, List.head?_append_of_ne_nil _ ha]

theorem head?_not_slash (a : List Char) (ha : a ≠ []) (hs : '/' ∉ a) :
    (a.head? == some '/') = false := by
  cases a with
  | nil => exact absurd rfl ha
  | cons c t =>
    have : c ≠ '/' := fun h => hs (by rw [h]; simp)
    simp [this]

theorem intercalate_ne_nil_of_head (sep a : List Char) (t : List (List Char)) (ha : a ≠ []) :
    List.intercalate sep (a :: t) ≠ [] := by
  intro h
  have := head?_intercalate_cons sep a t ha
  rw [h] at this
  cases a with
  | nil => exact ha rfl
  | cons c t' => simp at this

theorem cleanChars_join_plain (r : Bool) (ws : List (List Char)) (f : List Char)
    (hws : NormElems r ws) (h0 : f ≠ []) (h1 : f ≠ ['.']) (h2 : f ≠ ['.', '.'])
    (hs : '/' ∉ f) :
    cleanChars (renderPath r ws ++ '/' :: f) = renderPath r (ws ++ [f]) := by
  have hnorm : NormElems r (ws ++ [f]) :=
    normElems_snoc r ws f hws h0 h1 hs (fun _ => h2) (fun h => absurd h h2)
  have hfix := foldl_cleanStep_fixed r (ws ++ [f]) [] (by simpa using hnorm)
  simp only [List.nil_append] at hfix
  have hskip : ∀ b, cleanStep b [] [] = [] := by intro b; simp [cleanStep]
  cases r with
  | true =>
    cases ws with
    | nil =>
      have e : renderPath true [] ++ '/' :: f = List.intercalate ['/'] [[], [], f] := by
        simp [renderPath, List.intercalate, List.intersperse]
      rw [e]
      exact cleanChars_of_elems _ true _ (by simp) (by simpa using hs)
        (by simp [List.intercalate, List.intersperse])
        (by simp [List.intercalate, List.intersperse])
        (by simpa [hskip] using hfix)
    | cons a t =>
      have e : renderPath true (a :: t) ++ '/' :: f
          = List.intercalate ['/'] ([] :: (a :: t ++ [f])) := by
        rw [List.cons_append, intercalate_cons_cons, ← List.cons_append,
          intercalate_snoc _ _ _ (by simp)]
        simp [renderPath]
      rw [e]
      refine cleanChars_of_elems _ true _ (by simp) ?_ ?_ ?_ ?_
      · intro x hx
        rcases List.mem_cons.1 hx with hx | hx
        · rw [hx]; simp
        · exact (hnorm.1 x hx).2.2
      · rw [List.cons_append, intercalate_cons_cons]; simp
      · rw [List.cons_append, intercalate_cons_cons]; simp
      · simp only [List.foldl_cons, hskip]
        exact hfix
  | false =>
    cases ws with
    | nil =>
      have e : renderPath false [] ++ '/' :: f = List.intercalate ['/'] [['.'], f] := by
        simp [renderPath, List.intercalate, List.intersperse]
      rw [e]
      exact cleanChars_of_elems _ false _ (by simp) (by simpa using hs)
        (by simp [List.intercalate, List.intersperse])
        (by simp [List.intercalate, List.intersperse])
        (by simp [cleanStep, h0, h1, h2])
    | cons a t =>
      have ha := hws.1 a (by simp)
      have e : renderPath false (a :: t) ++ '/' :: f
          = List.intercalate ['/'] (a :: t ++ [f]) := by
        rw [intercalate_snoc _ _ _ (by simp)]
        simp [renderPath]
      rw [e]
      refine cleanChars_of_elems _ false _ (by simp) (fun x hx => (hnorm.1 x hx).2.2) ?_ ?_ hfix
      · rw [List.cons_append]; exact intercalate_ne_nil_of_head _ _ _ ha.1
      · rw [List.cons_append, head?_intercalate_cons _ _ _ ha.1]
        exact head?_not_slash a ha.1 ha.2.2

theorem cleanChars_dir_plain (r : Bool) (ws : List (List Char)) (f : List Char)
    (hws : NormElems r ws) (hs : '/' ∉ f) :
    cleanChars (uptoLastSlash (renderPath r (ws ++ [f]))) = renderPath r ws := by
  have hfix := foldl_cleanStep_fixed r ws [] (by simpa using hws)
  simp only [List.nil_append] at hfix
  have hskip : ∀ b st, cleanStep b st [] = st := by intro b st; simp [cleanStep]
  cases r with
  | true =>
    cases ws with
    | nil =>
      have e : renderPath true ([] ++ [f]) = [] ++ '/' :: f := by
        simp [renderPath, List.intercalate]
      rw [e, uptoLastSlash_append _ _ hs]
      decide
    | cons a t =>
      have e : renderPath true (a :: t ++ [f])
          = ('/' :: List.intercalate ['/'] (a :: t)) ++ '/' :: f := by
        rw [renderPath, if_pos rfl, intercalate_snoc _ _ _ (by simp)]
        simp
      have e2 : ('/' :: List.intercalate ['/'] (a :: t)) ++ ['/']
          = List.intercalate ['/'] ([] :: (a :: t ++ [[]])) := by
        show _ = List.intercalate ['/'] ([] :: a :: (t ++ [[]]))
        rw [intercalate_cons_cons, ← List.cons_append a t, intercalate_snoc _ _ _ (by simp)]
        simp
      rw [e, uptoLastSlash_append _ _ hs, e2]
      refine cleanChars_of_elems _ true _ (by simp) ?_ ?_ ?_ ?_
      · intro x hx
        rcases List.mem_cons.1 hx with hx | hx
        · rw [hx]; simp
        · rcases List.mem_append.1 hx with hx | hx
          · exact (hws.1 x hx).2.2
          · rw [List.mem_singleton] at hx; rw [hx]; simp
      · rw [List.cons_append, intercalate_cons_cons]; simp
      · rw [List.cons_append, intercalate_cons_cons]; simp
      · simp only [List.foldl_cons, List.foldl_append, List.foldl_nil, hskip]
        exact hfix
  | false =>
    cases ws with
    | nil =>
      have e : renderPath false ([] ++ [f]) = f := by
        simp [renderPath, List.intercalate]
      rw [e, uptoLastSlash_plain _ hs]
      decide
    | cons a t =>
      have ha := hws.1 a (by simp)
      have e : renderPath false (a :: t ++ [f])
          = List.intercalate ['/'] (a :: t) ++ '/' :: f := by
        rw [renderPath, if_neg (by simp), if_neg (by simp), intercalate_snoc _ _ _ (by simp)]
        simp
      have e2 : List.intercalate ['/'] (a :: t) ++ ['/']
          = List.intercalate ['/'] (a :: t ++ [[]]) := by
        rw [intercalate_snoc _ _ _ (by simp)]
        simp
      rw [e, uptoLastSlash_append _ _ hs, e2]
      refine cleanChars_of_elems _ false _ (by simp) ?_ ?_ ?_ ?_
      · intro x hx
        rcases List.mem_append.1 hx with hx | hx
        · exact (hws.1 x hx).2.2
        · rw [List.mem_singleton] at hx; rw [hx]; simp
      · rw [List.cons_append]; exact intercalate_ne_nil_of_head _ _ _ ha.1
      · rw [List.cons_append, head?_intercalate_cons _ _ _ ha.1]
        exact head?_not_slash a ha.1 ha.2.2
      · simp only [List.foldl_append, List.foldl_cons, List.foldl_nil, hskip]
        exact hfix

theorem renderPath_ne_nil (r : Bool) (ws : List (List Char)) (hws : NormElems r ws) :
    renderPath r ws ≠ [] := by
  unfold renderPath
  cases r with
  | true => simp
  | false =>
    cases ws with
    | nil => simp
    | cons a t =>
      simp only [Bool.false_eq_true, if_false]
      rw [if_neg (by simp)]
      exact intercalate_ne_nil_of_head _ _ _ (hws.1 a (by simp)).1

theorem goDir_goJoin_plain (p f : String) (hf : plainName f) :
    goDir (goJoin (goDir p) f) = goDir p := by
  obtain ⟨h0, h1, h2, hs⟩ := hf
  obtain ⟨ws, hn, hc⟩ := cleanChars_norm (uptoLastSlash p.data)
  have hd : goDir p = ⟨renderPath ((uptoLastSlash p.data).head? == some '/') ws⟩ := by
    unfold goDir; rw [hc]
  have hne : goDir p ≠ "" := by
    rw [hd]
    intro h
    exact renderPath_ne_nil _ ws hn (congrArg String.data h)
  have hj : goJoin (goDir p) f
      = ⟨renderPath ((uptoLastSlash p.data).head? == some '/') (ws ++ [f.data])⟩ := by
    unfold goJoin
    rw [if_pos hne, hd]
    simp only []
    rw [cleanChars_join_plain _ ws f.data hn h0 h1 h2 hs]
  rw [hj, hd]
  unfold goDir
  simp only []
  rw [cleanChars_dir_plain _ ws f.data hn hs]

theorem runCharts_pinned {σ : Type} (env : Collaborators σ) (cfg : Config) (cwd r : String)
    (files : List String) :
    ∀ w, (∀ e ∈ (runCharts env cfg cwd r files w).trace, e.failed = false) →
      ∃ results : List (List Commit × List Release),
        results.length = files.length ∧
        (runCharts env cfg cwd r files w).trace
          = ((files.zip results).map (chartCalls env cfg cwd r)).flatten := by
  induction files with
  | nil => intro w _; exact ⟨[], rfl, by simp [runCharts]⟩
  | cons x xs ih =>
    intro w h
    rcases runChart_cases env x w with ⟨e, w1, hg⟩ | ⟨cs, w1, hg⟩
    · have hx := runChart_fatal env cfg cwd r x w w1 e hg
      rw [runCharts_cons_fatal env cfg cwd r x xs w (by rw [hx]), hx] at h
      have := h (.getAllCommits (env.dir x) (.error e)) (by simp)
      simp [Event.failed] at this
    · have hx := runChart_completed env cfg cwd r x w w1 cs hg
      rw [runCharts_cons_completed env cfg cwd r x xs w (by rw [hx])] at h ⊢
      simp only [] at h ⊢
      obtain ⟨results, hlen, htr⟩ := ih _ (fun e he => h e (List.mem_append_right _ he))
      refine ⟨(cs, (env.createHelmReleases (trimPrefix x (r ++ "/"))
        (env.dir (trimPrefix x (cwd ++ "/"))) cs w1).1) :: results, by simp [hlen], ?_⟩
      rw [htr, hx]
      simp [chartCalls]

/-! ## The documents written -/

/-- C4, as the code has it. With the filename flag `../x.md` no collaborator fails
and two documents are written, yet neither lies inside its chart's directory: both
charts' documents go to `/repo/charts/x.md`, in the parent of `/repo/charts/a` and
of `/repo/charts/b`. -/
theorem document_outside_chart_directory_counterexample :
    (run goEnv (flagConfig ⟨some "../x.md", none, none⟩) 0).status = .completed ∧
    (∀ e ∈ (run goEnv (flagConfig ⟨some "../x.md", none, none⟩) 0).trace, e.failed = false) ∧
    (run goEnv (flagConfig ⟨some "../x.md", none, none⟩) 0).trace.take 3
      = [.getwd (.ok "/repo"), .findGitRepositoryRoot (.ok "/repo"),
         .findCharts "/repo" (.ok ["/repo/charts/a/Chart.yaml", "/repo/charts/b/Chart.yaml"])] ∧
    writtenPaths (run goEnv (flagConfig ⟨some "../x.md", none, none⟩) 0).trace
      = ["/repo/charts/x.md", "/repo/charts/x.md"] ∧
    goJoin (goDir "/repo/charts/a/Chart.yaml") "../x.md" = "/repo/charts/x.md" ∧
    goDir "/repo/charts/a/Chart.yaml" = "/repo/charts/a" ∧
    goDir "/repo/charts/x.md" = "/repo/charts" ∧
    hasPrefix "/repo/charts/x.md" ("/repo/charts/a" ++ "/") = false := by
  decide

/-- C4, amended. In a run of the command in which no collaborator call returns an
error, with `FindCharts` returning the list `files`, the calls made are the three
environment calls and then, chart by chart in list order, `GetAllCommits`,
`CreateHelmReleases` and `Markdown`: exactly one document per chart file `p`, written
at `filepath.Join(filepath.Dir(p), filename)`, where `filename` is the value of the
filename flag and `Changelog.md` when the flag is not given. With Go's `filepath.Dir`
and `filepath.Join`, that path lies directly inside the chart's directory (its
`filepath.Dir` is `filepath.Dir(p)`) whenever `filename` is a single path element,
as the default is. -/
theorem one_document_per_chart {σ W L : Type} (env : Collaborators σ)
    (parseLevel : String → L × Option GoError) (warnLevelString : String) (stdout : W)
    (flags : Flags) (logger : Logger W L) (w w1 w2 w3 : σ) (cwd r : String)
    (files : List String)
    (hlevel : (parseLevel (flags.verbosity.getD warnLevelString)).2 = none)
    (h1 : env.getwd w = (.ok cwd, w1)) (h2 : env.findGitRepositoryRoot w1 = (.ok r, w2))
    (h3 : env.findCharts (env.join cwd (flags.directory.getD ".")) w2 = (.ok files, w3))
    (hok : ∀ e ∈ (run env (flagConfig flags) w).trace, e.failed = false) :
    ∃ (o : Outcome σ) (results : List (List Commit × List Release)),
      Execute env parseLevel warnLevelString stdout flags logger w
        = (none, { out := stdout, level := (parseLevel (flags.verbosity.getD warnLevelString)).1 },
            some o) ∧
      o.status = .completed ∧
      results.length = files.length ∧
      o.trace
        = [.getwd (.ok cwd), .findGitRepositoryRoot (.ok r),
           .findCharts (env.join cwd (flags.directory.getD ".")) (.ok files)]
          ++ ((files.zip results).map (chartCalls env (flagConfig flags) cwd r)).flatten ∧
      writtenPaths o.trace
        = files.map (fun p => env.join (env.dir p) (flags.filename.getD "Changelog.md")) ∧
      (writtenPaths o.trace).length = files.length ∧
      (flags.filename = none →
        writtenPaths o.trace = files.map (fun p => env.join (env.dir p) "Changelog.md")) ∧
      (env.dir = goDir → env.join = goJoin → plainName (flags.filename.getD "Changelog.md") →
        ∀ p ∈ files,
          goDir (env.join (env.dir p) (flags.filename.getD "Changelog.md")) = goDir p) ∧
      plainName "Changelog.md" := by
  have hexec : Execute env parseLevel warnLevelString stdout flags logger w
      = (none, { out := stdout, level := (parseLevel (flags.verbosity.getD warnLevelString)).1 },
          some (run env (flagConfig flags) w)) := by
    rcases hp : parseLevel (flags.verbosity.getD warnLevelString) with ⟨lvl, err⟩
    rw [hp] at hlevel
    simp only [] at hlevel
    subst hlevel
    simp only [Execute, setUpLogs, hp]
  have hrun := run_of_environment env (flagConfig flags) w w1 w2 w3 cwd r files h1 h2 h3
  rw [hrun] at hok
  simp only [] at hok
  have hloop : ∀ e ∈ (runCharts env (flagConfig flags) cwd r files w3).trace,
      e.failed = false := fun e he => hok e (List.mem_append_right _ he)
  have hdone := runCharts_no_failure env (flagConfig flags) cwd r files w3 hloop
  have hw := runCharts_written env (flagConfig flags) cwd r files w3 hdone
  obtain ⟨results, hlen, htr⟩ := runCharts_pinned env (flagConfig flags) cwd r files w3 hloop
  have hw' : writtenPaths (run env (flagConfig flags) w).trace
      = files.map (fun p => env.join (env.dir p) (flags.filename.getD "Changelog.md")) := by
    rw [hrun]
    simp only [writtenPaths, flagConfig] at hw ⊢
    simp [List.filterMap_append, hw]
  refine ⟨run env (flagConfig flags) w, results, hexec, ?_, hlen, ?_, hw', ?_, ?_, ?_, ?_⟩
  · rw [hrun]; exact hdone
  · rw [hrun]; simp only []; rw [htr]; rfl
  · rw [hw']; simp
  · intro hnone
    rw [hw', hnone]; rfl
  · intro hd hj hplain p _
    rw [hd, hj]
    exact goDir_goJoin_plain p _ hplain
  · exact ⟨by decide, by decide, by decide, by decide⟩

theorem one_document_per_chart_witness :
    ∃ (o : Outcome Nat) (results : List (List Commit × List Release)),
      Execute goEnv sampleParseLevel "warning" "stdout" ⟨none, none, none⟩
          (⟨"stderr", 4⟩ : Logger String Nat) 0
        = (none, { out := "stdout", level := (sampleParseLevel
              ((none : Option String).getD "warning")).1 }, some o) ∧
      o.status = .completed ∧
      results.length = ["/repo/charts/a/Chart.yaml", "/repo/charts/b/Chart.yaml"].length ∧
      o.trace
        = [.getwd (.ok "/repo"), .findGitRepositoryRoot (.ok "/repo"),
           .findCharts (goEnv.join "/repo" ((none : Option String).getD "."))
             (.ok ["/repo/charts/a/Chart.yaml", "/repo/charts/b/Chart.yaml"])]
          ++ ((["/repo/charts/a/Chart.yaml", "/repo/charts/b/Chart.yaml"].zip results).map
                (chartCalls goEnv (flagConfig ⟨none, none, none⟩) "/repo" "/repo")).flatten ∧
      writtenPaths o.trace
        = ["/repo/charts/a/Chart.yaml", "/repo/charts/b/Chart.yaml"].map
            (fun p => goEnv.join (goEnv.dir p) ((none : Option String).getD "Changelog.md")) ∧
      (writtenPaths o.trace).length
        = ["/repo/charts/a/Chart.yaml", "/repo/charts/b/Chart.yaml"].length ∧
      ((none : Option String) = none →
        writtenPaths o.trace
          = ["/repo/charts/a/Chart.yaml", "/repo/charts/b/Chart.yaml"].map
              (fun p => goEnv.join (goEnv.dir p) "Changelog.md")) ∧
      (goEnv.dir = goDir → goEnv.join = goJoin →
        plainName ((none : Option String).getD "Changelog.md") →
        ∀ p ∈ ["/repo/charts/a/Chart.yaml", "/repo/charts/b/Chart.yaml"],
          goDir (goEnv.join (goEnv.dir p) ((none : Option String).getD "Changelog.md"))
            = goDir p) ∧
      plainName "Changelog.md" :=
  one_document_per_chart goEnv sampleParseLevel "warning" "stdout" ⟨none, none, none⟩
    ⟨"stderr", 4⟩ 0 1 2 3 "/repo" "/repo"
    ["/repo/charts/a/Chart.yaml", "/repo/charts/b/Chart.yaml"]
    (by decide) (by decide) (by decide) (by decide) (by decide)

/-- C5. For a discovered chart file `p` that the loop reaches, when
`GetAllCommits(filepath.Dir(p))` returns the commits `cs`, the calls made for `p` are
exactly that retrieval, then `CreateHelmReleases` on `cs` itself, then `Markdown`
on the very releases `CreateHelmReleases` returned: the history is handed on
unchanged and the reconstruction's result is what the renderer gets. -/
theorem chart_history_handed_on_unchanged {σ : Type} (env : Collaborators σ) (cfg : Config)
    (w w1 w2 w3 w4 : σ) (cwd r : String) (before : List String) (p : String)
    (after : List String) (cs : List Commit)
    (h1 : env.getwd w = (.ok cwd, w1)) (h2 : env.findGitRepositoryRoot w1 = (.ok r, w2))
    (h3 : env.findCharts (env.join cwd cfg.chartsDirectory) w2 = (.ok (before ++ p :: after), w3))
    (hbefore : (runCharts env cfg cwd r before w3).status = .completed)
    (hget : env.getAllCommits (env.dir p) (runCharts env cfg cwd r before w3).world
      = (.ok cs, w4)) :
    ∃ (releases : List Release) (w5 : σ) (rest : List Event),
      env.createHelmReleases (trimPrefix p (r ++ "/")) (env.dir (trimPrefix p (cwd ++ "/")))
        cs w4 = (releases, w5) ∧
      (run env cfg w).trace
        = [.getwd (.ok cwd), .findGitRepositoryRoot (.ok r),
           .findCharts (env.join cwd cfg.chartsDirectory) (.ok (before ++ p :: after))]
          ++ (runCharts env cfg cwd r before w3).trace
          ++ [.getAllCommits (env.dir p) (.ok cs),
              .createHelmReleases (trimPrefix p (r ++ "/"))
                (env.dir (trimPrefix p (cwd ++ "/"))) cs releases,
              .markdown (env.join (env.dir p) cfg.changelogFilename) releases]
          ++ rest ∧
      rest = (runCharts env cfg cwd r after
        (env.markdown (env.join (env.dir p) cfg.changelogFilename) releases w5)).trace := by
  have hp := runChart_completed env cfg cwd r p _ w4 cs hget
  refine ⟨_, _, _, rfl, ?_, rfl⟩
  rw [run_of_environment env cfg w w1 w2 w3 cwd r _ h1 h2 h3,
    runCharts_append env cfg cwd r before (p :: after) w3 hbefore,
    runCharts_cons_completed env cfg cwd r p after _ (by rw [hp]), hp]
  simp

theorem chart_history_handed_on_unchanged_witness :
    ∃ (releases : List Release) (w5 : Nat) (rest : List Event),
      (sampleEnv none).createHelmReleases (trimPrefix "/repo/charts/b/Chart.yaml" ("/repo" ++ "/"))
        ((sampleEnv none).dir (trimPrefix "/repo/charts/b/Chart.yaml" ("/repo" ++ "/")))
        [mkCommit "/repo/charts/b#1" 20, mkCommit "/repo/charts/b#0" 10] 7 = (releases, w5) ∧
      (run (sampleEnv none) (flagConfig ⟨none, none, none⟩) 0).trace
        = [.getwd (.ok "/repo"), .findGitRepositoryRoot (.ok "/repo"),
           .findCharts ((sampleEnv none).join "/repo" (flagConfig ⟨none, none, none⟩).chartsDirectory)
             (.ok (["/repo/charts/a/Chart.yaml"] ++ "/repo/charts/b/Chart.yaml" :: []))]
          ++ (runCharts (sampleEnv none) (flagConfig ⟨none, none, none⟩) "/repo" "/repo"
                ["/repo/charts/a/Chart.yaml"] 3).trace
          ++ [.getAllCommits ((sampleEnv none).dir "/repo/charts/b/Chart.yaml")
                (.ok [mkCommit "/repo/charts/b#1" 20, mkCommit "/repo/charts/b#0" 10]),
              .createHelmReleases (trimPrefix "/repo/charts/b/Chart.yaml" ("/repo" ++ "/"))
                ((sampleEnv none).dir (trimPrefix "/repo/charts/b/Chart.yaml" ("/repo" ++ "/")))
                [mkCommit "/repo/charts/b#1" 20, mkCommit "/repo/charts/b#0" 10] releases,
              .markdown ((sampleEnv none).join ((sampleEnv none).dir "/repo/charts/b/Chart.yaml")
                (flagConfig ⟨none, none, none⟩).changelogFilename) releases]
          ++ rest ∧
      rest = (runCharts (sampleEnv none) (flagConfig ⟨none, none, none⟩) "/repo" "/repo" []
        ((sampleEnv none).markdown ((sampleEnv none).join
          ((sampleEnv none).dir "/repo/charts/b/Chart.yaml")
          (flagConfig ⟨none, none, none⟩).changelogFilename) releases w5)).trace :=
  chart_history_handed_on_unchanged (sampleEnv none) (flagConfig ⟨none, none, none⟩)
    0 1 2 3 7 "/repo" "/repo" ["/repo/charts/a/Chart.yaml"] "/repo/charts/b/Chart.yaml" []
    [mkCommit "/repo/charts/b#1" 20, mkCommit "/repo/charts/b#0" 10]
    (by decide) (by decide) (by decide) (by decide) (by decide)

/-- C6. When `os.Getwd`, `FindGitRepositoryRoot` or `FindCharts` returns an error,
the run ends in `log.Fatal` right after that call: the failing call is the last call
made, no chart is processed (no `GetAllCommits`, `CreateHelmReleases` or
`Markdown` call occurs) and no document is written. -/
theorem environment_failure_processes_no_chart {σ : Type} (env : Collaborators σ)
    (cfg : Config) (w : σ)
    (hfail :
      (∃ e w1, env.getwd w = (.error e, w1)) ∨
      (∃ cwd w1 e w2, env.getwd w = (.ok cwd, w1) ∧
        env.findGitRepositoryRoot w1 = (.error e, w2)) ∨
      (∃ cwd w1 r w2 e w3, env.getwd w = (.ok cwd, w1) ∧
        env.findGitRepositoryRoot w1 = (.ok r, w2) ∧
        env.findCharts (env.join cwd cfg.chartsDirectory) w2 = (.error e, w3))) :
    (run env cfg w).status = .fatal ∧
    (∀ ev ∈ (run env cfg w).trace, ev.isChartEvent = false) ∧
    writtenPaths (run env cfg w).trace = [] ∧
    (∃ calls failing, (run env cfg w).trace = calls ++ [failing, .fatal] ∧
      failing.failed = true ∧ ∀ ev ∈ calls, ev.failed = false) := by
  rcases hfail with ⟨e, w1, h1⟩ | ⟨cwd, w1, e, w2, h1, h2⟩ | ⟨cwd, w1, r, w2, e, w3, h1, h2, h3⟩
  · refine ⟨by simp [run, h1], by simp [run, h1, Event.isChartEvent],
      by simp [run, h1, writtenPaths], [], .getwd (.error e), by simp [run, h1], rfl, by simp⟩
  · refine ⟨by simp [run, h1, h2], by simp [run, h1, h2, Event.isChartEvent],
      by simp [run, h1, h2, writtenPaths], [.getwd (.ok cwd)],
      .findGitRepositoryRoot (.error e), by simp [run, h1, h2], rfl, by simp [Event.failed]⟩
  · refine ⟨by simp [run, h1, h2, h3], by simp [run, h1, h2, h3, Event.isChartEvent],
      by simp [run, h1, h2, h3, writtenPaths],
      [.getwd (.ok cwd), .findGitRepositoryRoot (.ok r)],
      .findCharts (env.join cwd cfg.chartsDirectory) (.error e),
      by simp [run, h1, h2, h3], rfl, by simp [Event.failed]⟩

theorem environment_failure_processes_no_chart_witness :
    (run sampleEnvNoWd (flagConfig ⟨none, none, none⟩) 0).status = .fatal ∧
    (∀ ev ∈ (run sampleEnvNoWd (flagConfig ⟨none, none, none⟩) 0).trace,
      ev.isChartEvent = false) ∧
    writtenPaths (run sampleEnvNoWd (flagConfig ⟨none, none, none⟩) 0).trace = [] ∧
    (∃ calls failing,
      (run sampleEnvNoWd (flagConfig ⟨none, none, none⟩) 0).trace = calls ++ [failing, .fatal] ∧
      failing.failed = true ∧ ∀ ev ∈ calls, ev.failed = false) :=
  environment_failure_processes_no_chart sampleEnvNoWd (flagConfig ⟨none, none, none⟩) 0
    (Or.inl ⟨"getwd: no such file or directory", 1, by decide⟩)


/-- C9. Whenever the loop body for the chart file `p`, with git root `r` and
working directory `cwd`, calls `CreateHelmReleases(chartFile, relativeChartDir, ..)`:
`chartFile` is `s` when `p = r + "/" + s` (so `r + "/" + chartFile = p`), and is `p`
itself when `p` does not start with `r + "/"`; `relativeChartDir` is `filepath.Dir`
of `p` with the prefix `cwd + "/"` trimmed; and when `cwd = r` and `p = r + "/" + s`,
`relativeChartDir = filepath.Dir(chartFile)`. -/
theorem chart_paths_handed_to_reconstruction {σ : Type} (env : Collaborators σ) (cfg : Config)
    (cwd r p : String) (w : σ) (chartFile relativeChartDir : String) (cs : List Commit)
    (rs : List Release)
    (hcall : Event.createHelmReleases chartFile relativeChartDir cs rs
      ∈ (runChart env cfg cwd r p w).trace) :
    (∀ s, p = r ++ "/" ++ s → chartFile = s ∧ r ++ "/" ++ chartFile = p) ∧
    ((¬ ∃ s, p = r ++ "/" ++ s) → chartFile = p) ∧
    relativeChartDir = env.dir (trimPrefix p (cwd ++ "/")) ∧
    (∀ s, p = cwd ++ "/" ++ s → relativeChartDir = env.dir s) ∧
    (cwd = r → ∀ s, p = r ++ "/" ++ s → relativeChartDir = env.dir chartFile) := by
  have hargs : chartFile = trimPrefix p (r ++ "/") ∧
      relativeChartDir = env.dir (trimPrefix p (cwd ++ "/")) := by
    rcases runChart_cases env p w with ⟨e, w1, hg⟩ | ⟨cs', w1, hg⟩
    · rw [runChart_fatal env cfg cwd r p w w1 e hg] at hcall
      simp at hcall
    · rw [runChart_completed env cfg cwd r p w w1 cs' hg] at hcall
      simp at hcall
      exact ⟨hcall.1, hcall.2.1⟩
  obtain ⟨hcf, hrd⟩ := hargs
  refine ⟨?_, ?_, hrd, ?_, ?_⟩
  · intro s hs
    have : chartFile = s := by rw [hcf, hs, trimPrefix_append]
    exact ⟨this, by rw [this, hs]⟩
  · intro hno
    rw [hcf]
    exact trimPrefix_unchanged p (r ++ "/") hno
  · intro s hs
    rw [hrd, hs, trimPrefix_append]
  · intro hwr s hs
    rw [hrd, hcf, hwr]

theorem chart_paths_handed_to_reconstruction_witness :
    (∀ s, "/repo/charts/a/Chart.yaml" = "/repo" ++ "/" ++ s →
      "charts/a/Chart.yaml" = s ∧ "/repo" ++ "/" ++ "charts/a/Chart.yaml" = "/repo/charts/a/Chart.yaml") ∧
    ((¬ ∃ s, "/repo/charts/a/Chart.yaml" = "/repo" ++ "/" ++ s) →
      "charts/a/Chart.yaml" = "/repo/charts/a/Chart.yaml") ∧
    "charts/a" = (sampleEnv none).dir (trimPrefix "/repo/charts/a/Chart.yaml" ("/repo" ++ "/")) ∧
    (∀ s, "/repo/charts/a/Chart.yaml" = "/repo" ++ "/" ++ s → "charts/a" = (sampleEnv none).dir s) ∧
    ("/repo" = "/repo" → ∀ s, "/repo/charts/a/Chart.yaml" = "/repo" ++ "/" ++ s →
      "charts/a" = (sampleEnv none).dir "charts/a/Chart.yaml") :=
  chart_paths_handed_to_reconstruction (sampleEnv none) (flagConfig ⟨none, none, none⟩)
    "/repo" "/repo" "/repo/charts/a/Chart.yaml" 3 "charts/a/Chart.yaml" "charts/a"
    [mkCommit "/repo/charts/a#1" 20, mkCommit "/repo/charts/a#0" 10]
    [closeBucket (some "1.0") [mkCommit "/repo/charts/a#1" 20, mkCommit "/repo/charts/a#0" 10]]
    (by decide)

/-- C10. The call `setUpLogs(out, level)` returns an error exactly when
`logrus.ParseLevel(level)` does, and it is that error; on success the logger writes
to `out` at the parsed level; on error the logger's level is what it was, while its
output is already `out`. -/
theorem setUpLogs_sets_output_then_level {W L : Type} (parseLevel : String → L × Option GoError)
    (out : W) (level : String) (logger : Logger W L) :
    (setUpLogs parseLevel out level logger).1 = (parseLevel level).2 ∧
    ((setUpLogs parseLevel out level logger).1 ≠ none ↔ (parseLevel level).2 ≠ none) ∧
    ((setUpLogs parseLevel out level logger).1 = none →
      (setUpLogs parseLevel out level logger).2 = { out := out, level := (parseLevel level).1 }) ∧
    ((setUpLogs parseLevel out level logger).1 ≠ none →
      (setUpLogs parseLevel out level logger).2 = { out := out, level := logger.level }) := by
  unfold setUpLogs
  rcases hp : parseLevel level with ⟨lvl, err⟩
  cases err with
  | none => simp
  | some e => simp

theorem setUpLogs_sets_output_then_level_witness :
    setUpLogs sampleParseLevel "stdout" "debug" ⟨"stderr", 4⟩ = (none, ⟨"stdout", 5⟩) ∧
    setUpLogs sampleParseLevel "stdout" "loud" ⟨"stderr", 4⟩
      = (some "not a valid logrus Level: loud", ⟨"stdout", 4⟩) ∧
    ((setUpLogs sampleParseLevel "stdout" "loud" ⟨"stderr", 4⟩).1 ≠ none ↔
      (sampleParseLevel "loud").2 ≠ none) :=
  ⟨by decide, by decide,
    (setUpLogs_sets_output_then_level sampleParseLevel "stdout" "loud" ⟨"stderr", 4⟩).2.1⟩

end HelmChangelog
